import Mathlib

/-!
# cppbary: exponentially weighted barycenters

A shallow embedding of `src/main.cpp` (`bary_batch`, `bary_recursive`) and proofs about it.

* `double` is idealised: every definition is written over an arbitrary linearly ordered
  field `R` with the exponential passed as the parameter `expf`, so that the definitions
  run on rationals; the theorems instantiate `R` with the real numbers and `expf` with
  `Real.exp`.
* `Vec` (`vector<double>`) is a `List R`, `vector<Vec>` a `List (List R)`.
* A C++ exception is an `Except.error`; a vector subscript outside the bounds of its vector,
  which C++ leaves undefined, is the separate error `Error.out_of_bounds`.
* The oracle is a total pure function `List R → R`.
* The random generator of `bary_recursive` is a stream `noise : Nat → R` of the values that the
  successive calls `dist(gen)` return, read at a cursor that every call advances.
* A quotient with the divisor `0.0` throws nothing in C++ and yields an infinity or a NaN,
  which the field `R` does not have: the state of `bary_recursive` carries the flag `finite`,
  cleared by the first such quotient, after which the numbers of the state no longer describe
  what the program holds.
* The exponential of the theorems on exact arithmetic is `Real.exp`, which is never zero.  The
  `exp` of doubles is: it returns `0.0` for an argument of at most `-746`.  The theorems about
  a zero divisor in `bary_recursive` take the exponential `exp_underflow Real.exp`, which has
  this one feature of the doubles.
* The `int` counter of the loop is an unbounded integer: the only increment that could leave
  the range of `int` is the one after the last pass, whose value is never read.
-/

namespace Cppbary

/-- Ways in which a call can fail to return a value. -/
inductive Error where
  /-- The exception `std::invalid_argument(what)`. -/
  | invalid_argument (what : String)
  /-- The exception `std::runtime_error(what)`. -/
  | runtime_error (what : String)
  /-- A subscript `v[i]` with `i >= v.size()`: undefined behaviour, no exception is thrown. -/
  | out_of_bounds
  deriving DecidableEq, Repr

section Model

variable {R : Type} [LinearOrderedField R]

/-- The lambda `bexp_fun` of `bary_batch` (lines 32-35): `exp(-nu * oracle(x))`. -/
def bexp_fun (expf : R → R) (oracle : List R → R) (nu : R) (x : List R) : R :=
  expf (-nu * oracle x)

/-- The vector `x_weights` of `bary_batch` (lines 37-47): one `bexp_fun` value per candidate,
stored at the candidate's index. -/
def x_weights (expf : R → R) (oracle : List R → R) (nu : R) (xs : List (List R)) : List R :=
  xs.map (bexp_fun expf oracle nu)

/-- The call `accumulate(x_weights.begin(), x_weights.end(), 0.0)` (line 50). -/
def accumulate (ws : List R) : R :=
  ws.foldl (fun acc w => acc + w) 0

/-- The guard of lines 53-56: a weight sum below `1e-10` is replaced by `1e-10`. -/
def clamp_weight_sum (weight_sum : R) : R :=
  if weight_sum < 1e-10 then 1e-10 else weight_sum

/-- The inner loop of lines 59-61 for one candidate `x` with weight `w`, started at column `j`:
`barycenter[j] += x[j] * w / weight_sum` for every component of `x`.  Writing to a column that
`barycenter` does not have is out of bounds. -/
def add_candidate (weight_sum w : R) : List R → Nat → List R → Except Error (List R)
  | [], _, barycenter => .ok barycenter
  | xj :: rest, j, barycenter =>
    if j < barycenter.length then
      add_candidate weight_sum w rest (j + 1)
        (barycenter.set j (barycenter.getD j 0 + xj * w / weight_sum))
    else
      .error .out_of_bounds

/-- The outer loop of lines 58-62 over the candidates paired with their weights
(`xs[i]` with `x_weights[i]`). -/
def add_candidates (weight_sum : R) : List (List R × R) → List R → Except Error (List R)
  | [], barycenter => .ok barycenter
  | (x, w) :: rest, barycenter =>
    match add_candidate weight_sum w x 0 barycenter with
    | .ok barycenter1 => add_candidates weight_sum rest barycenter1
    | .error e => .error e

/-- Lines 49-64 of `bary_batch`: the aggregation once the weights are known.  `x0` is `xs[0]`. -/
def aggregate (x0 : List R) (xs : List (List R)) (ws : List R) : Except Error (List R) :=
  let barycenter : List R := List.replicate x0.length 0
  let weight_sum := clamp_weight_sum (accumulate ws)
  add_candidates weight_sum (xs.zip ws) barycenter

/-- The function `bary_batch` (lines 26-65). -/
def bary_batch (expf : R → R) (oracle : List R → R) (xs : List (List R)) (nu : R) :
    Except Error (List R) :=
  match xs with
  | [] => .error .out_of_bounds
  | x0 :: _ =>
    if oracle x0 = 0 then
      .error (.invalid_argument "Oracle function must evaluate as a scalar value.")
    else
      aggregate x0 xs (x_weights expf oracle nu xs)

/-- One invocation of the oracle, recorded in the call log.  The log is a multiset: the tasks
of lines 40-42 are started with `std::async` and run in no fixed order, so only which
arguments the oracle received, and how many times, is a property of the code. -/
def call_oracle (oracle : List R → R) (log : Multiset (List R)) (x : List R) :
    R × Multiset (List R) :=
  (oracle x, x ::ₘ log)

/-- The weights of lines 37-47 with every oracle invocation logged. -/
def x_weights_logged (expf : R → R) (oracle : List R → R) (nu : R) :
    List (List R) → Multiset (List R) → List R × Multiset (List R)
  | [], log => ([], log)
  | x :: rest, log =>
    let r := call_oracle oracle log x
    let t := x_weights_logged expf oracle nu rest r.2
    (expf (-nu * r.1) :: t.1, t.2)

/-- The function `bary_batch` with the log of the oracle invocations it makes: the
invocation of the guard on line 27 and the one inside each `bexp_fun` task. -/
def bary_batch_logged (expf : R → R) (oracle : List R → R) (xs : List (List R)) (nu : R) :
    Except Error (List R) × Multiset (List R) :=
  match xs with
  | [] => (.error .out_of_bounds, 0)
  | x0 :: _ =>
    let r := call_oracle oracle 0 x0
    if r.1 = 0 then
      (.error (.invalid_argument "Oracle function must evaluate as a scalar value."), r.2)
    else
      let t := x_weights_logged expf oracle nu xs r.2
      (aggregate x0 xs t.1, t.2)

/-- The oracle of `main` (lines 130-134): the sum of the squares of the components. -/
def sum_of_squares (x : List R) : R :=
  x.foldl (fun sum xi => sum + xi * xi) 0

/-- Squared Euclidean distance between two vectors of the same length. -/
def sq_dist (a b : List R) : R :=
  ((a.zip b).map (fun p => (p.1 - p.2) ^ 2)).sum

/-- The `exp` of `<cmath>` on doubles where it underflows: for an argument of at most `-746`
the exponential is below `2^-1075`, half the smallest positive double, and the call returns
`0.0`.  For every other argument the exponential `expf` is kept. -/
def exp_underflow (expf : R → R) (t : R) : R :=
  if t ≤ -746 then 0 else expf t

/-- The variables that the loop of `bary_recursive` carries from one pass to the next:
`m`, `xhat` and `step` (lines 72-73 and 118), the cursor `gen` of the random generator, and two
records kept for the proofs: `probes`, the arguments of the oracle invocations made so far, in
order, and `finite`, which is cleared by the first quotient with the divisor zero. -/
structure State (R : Type) where
  m : R
  xhat : List R
  step : Option (List R)
  gen : Nat
  probes : List (List R)
  finite : Bool

/-- The vector `curiosity` of lines 89-99: with a previous step,
`curiosity[i] = dist(gen) - zeta * (*prev_step)[i]`, without one `curiosity[i] = dist(gen)`;
the `i`-th call of `dist(gen)` returns `noise (gen + i)`. -/
def draw_curiosity (noise : Nat → R) (zeta : R) (gen size : Nat) : Option (List R) → List R
  | some prev_step =>
    (List.range size).map (fun i => noise (gen + i) - zeta * prev_step.getD i 0)
  | none => (List.range size).map (fun i => noise (gen + i))

/-- The vector `probe` of lines 101-104: `probe[i] = estimate[i] + curiosity[i]`. -/
def make_probe (estimate curiosity : List R) : List R :=
  List.zipWith (fun e c => e + c) estimate curiosity

/-- Lines 88-114 of the lambda `update`, after its size check: `s.m` is the argument
`weight_total`, `s.xhat` is `estimate` and `s.step` is `prev_step`. -/
def update_body (expf : R → R) (oracle : List R → R) (nu zeta lambda_ : R) (noise : Nat → R)
    (s : State R) : State R :=
  let curiosity := draw_curiosity noise zeta s.gen s.xhat.length s.step
  let probe := make_probe s.xhat curiosity
  let weight := expf (-nu * oracle probe)
  let weight_total := lambda_ * s.m + weight
  let step := curiosity.map (fun c => c * weight / weight_total)
  { m := weight_total
    xhat := List.zipWith (fun e st => e + st) s.xhat step
    step := some step
    gen := s.gen + s.xhat.length
    probes := s.probes ++ [probe]
    finite := s.finite && (s.xhat.isEmpty || decide (weight_total ≠ 0)) }

/-- The lambda `update` of `bary_recursive` (lines 80-115). -/
def update (expf : R → R) (oracle : List R → R) (nu zeta lambda_ : R) (noise : Nat → R)
    (s : State R) : Except Error (State R) :=
  match s.step with
  | some prev_step =>
    if prev_step.length ≠ s.xhat.length then
      .error (.runtime_error
        ("prev_step and estimate vectors must have the same size. Estimate size: "
          ++ toString s.xhat.length ++ ", prev_step size: " ++ toString prev_step.length))
    else
      .ok (update_body expf oracle nu zeta lambda_ noise s)
  | none => .ok (update_body expf oracle nu zeta lambda_ noise s)

/-- The loop of lines 119-123, entered with the counter `i`: one `update`, then the test
`i >= iterations`, then `++i`. -/
def loop (expf : R → R) (oracle : List R → R) (nu zeta lambda_ : R) (noise : Nat → R)
    (iterations : Int) (i : Int) (s : State R) : Except Error (State R) :=
  match update expf oracle nu zeta lambda_ noise s with
  | .error e => .error e
  | .ok s1 =>
    if i ≥ iterations then .ok s1
    else loop expf oracle nu zeta lambda_ noise iterations (i + 1) s1
termination_by (iterations - i).toNat
decreasing_by omega

/-- The variables of `bary_recursive` before the loop (lines 72-78 and 117-118). -/
def initial_state (x0 : List R) : State R :=
  { m := 0, xhat := x0, step := none, gen := 0, probes := [], finite := true }

/-- The function `bary_recursive` (lines 67-126), with the generator replaced by the stream
`noise` of its samples.  The pair that the C++ function returns is `(m, xhat)` of the state
returned here. -/
def bary_recursive (expf : R → R) (oracle : List R → R) (x0 : List R) (nu zeta lambda_ : R)
    (noise : Nat → R) (iterations : Int) : Except Error (State R) :=
  loop expf oracle nu zeta lambda_ noise iterations 1 (initial_state x0)

/-- The update of the specification (section 4.2, steps 1 to 6) for the noise samples `n` of
one iteration: the triple `(weightTotal', estimate', step)`. -/
def spec_update (expf : R → R) (oracle : List R → R) (nu zeta lambda_ : R) (n : List R)
    (weightTotal : R) (estimate : List R) (previousStep : Option (List R)) :
    R × List R × List R :=
  let curiosity := match previousStep with
    | none => n
    | some p => List.zipWith (fun nj pj => nj - zeta * pj) n p
  let probe := List.zipWith (fun e c => e + c) estimate curiosity
  let weight := expf (-nu * oracle probe)
  let weightTotal1 := lambda_ * weightTotal + weight
  let step := curiosity.map (fun c => c * weight / weightTotal1)
  (weightTotal1, List.zipWith (fun e st => e + st) estimate step, step)

/-- The noise samples of one iteration: `size` values of the stream from the cursor `gen`. -/
def samples (noise : Nat → R) (gen size : Nat) : List R :=
  (List.range size).map (fun j => noise (gen + j))

/-- The state `(weightTotal, estimate, previousStep)` of the specification after `k`
iterations from `(0, x0, none)` (section 4.2, step 7). -/
def spec_run (expf : R → R) (oracle : List R → R) (nu zeta lambda_ : R) (noise : Nat → R)
    (x0 : List R) : Nat → R × List R × Option (List R)
  | 0 => (0, x0, none)
  | k + 1 =>
    let t := spec_run expf oracle nu zeta lambda_ noise x0 k
    let r := spec_update expf oracle nu zeta lambda_ (samples noise (k * x0.length) x0.length)
      t.1 t.2.1 t.2.2
    (r.1, r.2.1, some r.2.2)

/-- The vector of length `d` whose `j`-th component is the sum over the candidates `x` of
`x[j] * w x / S`: the weighted average that the aggregation loops are compared with. -/
def weighted_average (w : List R → R) (S : R) (d : Nat) (xs : List (List R)) : List R :=
  (List.range d).map (fun j => (xs.map (fun x => x.getD j 0 * w x / S)).sum)

/-- What one pass of the inner loop does to `barycenter` for a candidate of full length. -/
def add_scaled (S w : R) (barycenter x : List R) : List R :=
  List.zipWith (fun bk xk => bk + xk * w / S) barycenter x

/-- The vector `v` is the combination of the candidates `xs` with the coefficients `c`:
one coefficient per candidate, none negative, of sum one, and in every column `j` of `v`
the value `v[j]` is the sum of the products `c[i] * xs[i][j]`. -/
def is_convex_combination (c : List R) (xs : List (List R)) (v : List R) : Prop :=
  c.length = xs.length ∧ (∀ a ∈ c, 0 ≤ a) ∧ c.sum = 1 ∧
    ∀ j, j < v.length → v.getD j 0 = ((c.zip xs).map (fun p => p.1 * p.2.getD j 0)).sum

instance (c : List R) (xs : List (List R)) (v : List R) :
    Decidable (is_convex_combination c xs v) := by
  unfold is_convex_combination
  infer_instance

end Model

/-! ## Closed form of the aggregation -/

section ClosedForm

variable {R : Type} [LinearOrderedField R]

theorem accumulate_eq_sum (ws : List R) : accumulate ws = ws.sum := by
  unfold accumulate
  exact List.sum_eq_foldl.symm

theorem clamp_weight_sum_eq_max (S : R) : clamp_weight_sum S = max S 1e-10 := by
  unfold clamp_weight_sum
  split_ifs with h
  · exact (max_eq_right h.le).symm
  · exact (max_eq_left (not_lt.mp h)).symm

theorem clamp_weight_sum_of_le {S : R} (h : 1e-10 ≤ S) : clamp_weight_sum S = S := by
  unfold clamp_weight_sum
  exact if_neg (not_lt.mpr h)

theorem clamp_weight_sum_of_lt {S : R} (h : S < 1e-10) : clamp_weight_sum S = 1e-10 := by
  unfold clamp_weight_sum
  exact if_pos h

theorem floor_pos : (0 : R) < 1e-10 := by
  norm_num

theorem clamp_weight_sum_pos (S : R) : 0 < clamp_weight_sum S := by
  rw [clamp_weight_sum_eq_max]
  exact lt_max_of_lt_right floor_pos

theorem add_candidate_append (S w : R) (x pre suf : List R) (h : x.length = suf.length) :
    add_candidate S w x pre.length (pre ++ suf) = .ok (pre ++ add_scaled S w suf x) := by
  induction x generalizing pre suf with
  | nil =>
    cases suf with
    | nil => simp [add_candidate, add_scaled]
    | cons s t => simp at h
  | cons xj rest ih =>
    cases suf with
    | nil => simp at h
    | cons s t =>
      have ht : rest.length = t.length := by simpa using h
      have hlt : pre.length < (pre ++ s :: t).length := by simp
      have hset : (pre ++ s :: t).set pre.length ((pre ++ s :: t).getD pre.length 0 + xj * w / S)
          = (pre ++ [s + xj * w / S]) ++ t := by
        have hget : (pre ++ s :: t)[pre.length]? = some s := by
          rw [List.getElem?_append_right (le_refl _)]
          simp
        simp [List.getD, hget]
      have hlen : pre.length + 1 = (pre ++ [s + xj * w / S]).length := by simp
      rw [add_candidate, if_pos hlt, hset, hlen, ih _ _ ht]
      simp [add_scaled]

theorem add_candidate_full (S w : R) (x b : List R) (h : x.length = b.length) :
    add_candidate S w x 0 b = .ok (add_scaled S w b x) := by
  simpa using add_candidate_append S w x [] b h

theorem add_scaled_length (S w : R) (b x : List R) (h : x.length = b.length) :
    (add_scaled S w b x).length = b.length := by
  simp [add_scaled, h]

theorem add_scaled_getD (S w : R) (b x : List R) (h : x.length = b.length) (j : Nat) :
    (add_scaled S w b x).getD j 0 = b.getD j 0 + x.getD j 0 * w / S := by
  unfold add_scaled
  by_cases hj : j < b.length
  · have hjx : j < x.length := h ▸ hj
    simp [List.getD, List.getElem?_zipWith, List.getElem?_eq_getElem hj,
      List.getElem?_eq_getElem hjx]
  · have hjx : ¬ j < x.length := h ▸ hj
    simp [List.getD, List.getElem?_zipWith, List.getElem?_eq_none (not_lt.mp hj),
      List.getElem?_eq_none (not_lt.mp hjx)]

theorem add_candidates_full (S : R) (ps : List (List R × R)) (b : List R)
    (h : ∀ p ∈ ps, p.1.length = b.length) :
    ∃ v, add_candidates S ps b = .ok v ∧ v.length = b.length ∧
      ∀ j, v.getD j 0 = b.getD j 0 + (ps.map (fun p => p.1.getD j 0 * p.2 / S)).sum := by
  induction ps generalizing b with
  | nil => exact ⟨b, rfl, rfl, fun j => by simp⟩
  | cons p rest ih =>
    obtain ⟨x, w⟩ := p
    have hx : x.length = b.length := h (x, w) (List.mem_cons_self _ _)
    have hrest : ∀ q ∈ rest, q.1.length = (add_scaled S w b x).length := by
      intro q hq
      rw [add_scaled_length S w b x hx]
      exact h q (List.mem_cons_of_mem _ hq)
    obtain ⟨v, hv, hvl, hvj⟩ := ih (add_scaled S w b x) hrest
    refine ⟨v, ?_, ?_, ?_⟩
    · simp only [add_candidates, add_candidate_full S w x b hx]
      exact hv
    · rw [hvl, add_scaled_length S w b x hx]
    · intro j
      rw [hvj j, add_scaled_getD S w b x hx j]
      simp [add_assoc]

theorem zip_map_self {α β : Type} (w : α → β) (xs : List α) :
    xs.zip (xs.map w) = xs.map (fun x => (x, w x)) := by
  induction xs with
  | nil => rfl
  | cons x rest ih => simp [ih]

theorem zip_self_map {α : Type} (xs : List α) : xs.zip xs = xs.map (fun x => (x, x)) := by
  induction xs with
  | nil => rfl
  | cons x rest ih => simp [ih]

theorem aggregate_eq (w : List R → R) (x0 : List R) (xs : List (List R))
    (h : ∀ x ∈ xs, x.length = x0.length) :
    aggregate x0 xs (xs.map w)
      = .ok (weighted_average w (clamp_weight_sum (xs.map w).sum) x0.length xs) := by
  unfold aggregate
  simp only [accumulate_eq_sum]
  have hps : ∀ p ∈ xs.zip (xs.map w),
      p.1.length = (List.replicate x0.length (0 : R)).length := by
    intro p hp
    rw [List.length_replicate]
    exact h p.1 (List.of_mem_zip hp).1
  obtain ⟨v, hv, hvl, hvj⟩ :=
    add_candidates_full (clamp_weight_sum (xs.map w).sum) (xs.zip (xs.map w)) _ hps
  rw [hv]
  congr 1
  rw [List.length_replicate] at hvl
  apply List.ext_getElem
  · simp [weighted_average, hvl]
  · intro j h1 h2
    have hj : j < x0.length := hvl ▸ h1
    have e1 : v[j] = v.getD j 0 := by
      simp [List.getD, List.getElem?_eq_getElem h1]
    rw [e1, hvj j, zip_map_self]
    simp [weighted_average, List.getD, List.getElem?_replicate, hj, Function.comp_def]

/-- Closed form of `bary_batch` on a non-empty list of candidates of one length whose first
candidate passes the guard. -/
theorem bary_batch_eq (expf : R → R) (oracle : List R → R) (nu : R) (x0 : List R)
    (rest : List (List R)) (h : ∀ x ∈ x0 :: rest, x.length = x0.length)
    (h0 : oracle x0 ≠ 0) :
    bary_batch expf oracle (x0 :: rest) nu
      = .ok (weighted_average (bexp_fun expf oracle nu)
          (clamp_weight_sum ((x0 :: rest).map (bexp_fun expf oracle nu)).sum) x0.length
          (x0 :: rest)) := by
  unfold bary_batch
  simp only [if_neg h0, x_weights]
  exact aggregate_eq (bexp_fun expf oracle nu) x0 (x0 :: rest) h

theorem weighted_average_length (w : List R → R) (S : R) (d : Nat) (xs : List (List R)) :
    (weighted_average w S d xs).length = d := by
  simp [weighted_average]

theorem weighted_average_getElem (w : List R → R) (S : R) (d : Nat) (xs : List (List R))
    (j : Nat) (hj : j < (weighted_average w S d xs).length) :
    (weighted_average w S d xs)[j] = (xs.map (fun x => x.getD j 0 * w x / S)).sum := by
  simp [weighted_average]

theorem weighted_average_getD (w : List R → R) (S : R) (d : Nat) (xs : List (List R))
    (j : Nat) (hj : j < d) :
    (weighted_average w S d xs).getD j 0 = (xs.map (fun x => x.getD j 0 * w x / S)).sum := by
  simp [weighted_average, List.getD, List.getElem?_map, List.getElem?_range hj]

theorem zip_map_coefficients (c : List R → R) (xs : List (List R)) (j : Nat) :
    (((xs.map c).zip xs).map (fun p => p.1 * p.2.getD j 0))
      = xs.map (fun x => c x * x.getD j 0) := by
  induction xs with
  | nil => rfl
  | cons x rest ih =>
    simp only [List.map_cons, List.zip_cons_cons, ih]

end ClosedForm

/-! ## The batch barycenter over the real numbers -/

section Batch

theorem bexp_fun_pos (oracle : List ℝ → ℝ) (nu : ℝ) (x : List ℝ) :
    0 < bexp_fun Real.exp oracle nu x :=
  Real.exp_pos _

theorem weight_sum_pos (oracle : List ℝ → ℝ) (nu : ℝ) (x0 : List ℝ) (rest : List (List ℝ)) :
    0 < ((x0 :: rest).map (bexp_fun Real.exp oracle nu)).sum := by
  apply List.sum_pos
  · intro a ha
    obtain ⟨x, _, rfl⟩ := List.mem_map.mp ha
    exact bexp_fun_pos oracle nu x
  · simp

theorem sum_map_div {α : Type} (l : List α) (f : α → ℝ) (S : ℝ) :
    (l.map (fun x => f x / S)).sum = (l.map f).sum / S := by
  simp only [div_eq_mul_inv]
  exact List.sum_map_mul_right l f S⁻¹

/-- C1: on a non-empty list of candidates that all have the length `d`, when the oracle is
not zero on the first candidate and the sum `S` of the weights `exp(-nu * oracle x)` is at
least `1e-10`, `bary_batch` returns a vector of length `d` whose `j`-th component is the sum
over the candidates `x` of `x[j] * exp(-nu * oracle x) / S`. -/
theorem bary_batch_weighted_average (oracle : List ℝ → ℝ) (nu : ℝ) (x0 : List ℝ)
    (rest : List (List ℝ)) (d : ℕ) (hlen : ∀ x ∈ x0 :: rest, x.length = d)
    (h0 : oracle x0 ≠ 0)
    (hS : 1e-10 ≤ ((x0 :: rest).map (fun x => Real.exp (-nu * oracle x))).sum) :
    ∃ v, bary_batch Real.exp oracle (x0 :: rest) nu = .ok v ∧ v.length = d ∧
      ∀ (j : ℕ) (hj : j < v.length),
        v[j] = ((x0 :: rest).map (fun x => x.getD j 0 * Real.exp (-nu * oracle x) /
          ((x0 :: rest).map (fun x => Real.exp (-nu * oracle x))).sum)).sum := by
  have hd : x0.length = d := hlen x0 (List.mem_cons_self _ _)
  have hlen0 : ∀ x ∈ x0 :: rest, x.length = x0.length := fun x hx => (hlen x hx).trans hd.symm
  refine ⟨_, bary_batch_eq Real.exp oracle nu x0 rest hlen0 h0, ?_, ?_⟩
  · rw [weighted_average_length, hd]
  · intro j hj
    rw [weighted_average_getElem]
    have hc : clamp_weight_sum ((x0 :: rest).map (bexp_fun Real.exp oracle nu)).sum
        = ((x0 :: rest).map (fun x => Real.exp (-nu * oracle x))).sum :=
      clamp_weight_sum_of_le hS
    rw [hc]
    rfl

/-- Witness of C1: one candidate `[1, 2]`, the constant oracle `1` and `nu = 0`. -/
theorem bary_batch_weighted_average_witness :
    ∃ v, bary_batch Real.exp (fun _ => 1) [[1, 2]] 0 = .ok v ∧ v.length = 2 ∧
      ∀ (j : ℕ) (hj : j < v.length),
        v[j] = ([[1, 2]].map (fun x : List ℝ => x.getD j 0 * Real.exp (-0 * 1) /
          ([[1, 2]].map (fun _ : List ℝ => Real.exp (-0 * 1))).sum)).sum :=
  bary_batch_weighted_average (fun _ => 1) 0 [1, 2] [] 2 (by simp) (by norm_num)
    (by norm_num)

/-- C2, as stated, fails: the candidate `[1]` with an oracle that is zero everywhere has the
weight sum `exp 0 = 1`, above `1e-10`, and `bary_batch` throws instead of returning. -/
theorem bary_batch_convex_hull_counterexample :
    (1e-10 : ℝ) ≤ ([[1]].map (fun x : List ℝ => Real.exp (-3 * (fun _ => 0) x))).sum ∧
      bary_batch Real.exp (fun _ => 0) [[1]] 3
        = .error (.invalid_argument "Oracle function must evaluate as a scalar value.") := by
  constructor
  · norm_num
  · simp [bary_batch]

/-- C2, amended: on a non-empty list of candidates of one length `d`, when the oracle is not
zero on the first candidate and the weight sum is at least `1e-10` (the clamp is not
taken), `bary_batch` returns a vector of length `d` that is a combination of the candidates
with coefficients that are not negative and sum to one. -/
theorem bary_batch_convex_hull (oracle : List ℝ → ℝ) (nu : ℝ) (x0 : List ℝ)
    (rest : List (List ℝ)) (d : ℕ) (hlen : ∀ x ∈ x0 :: rest, x.length = d)
    (h0 : oracle x0 ≠ 0)
    (hS : 1e-10 ≤ ((x0 :: rest).map (fun x => Real.exp (-nu * oracle x))).sum) :
    ∃ v c, bary_batch Real.exp oracle (x0 :: rest) nu = .ok v ∧ v.length = d ∧
      is_convex_combination c (x0 :: rest) v := by
  have hd : x0.length = d := hlen x0 (List.mem_cons_self _ _)
  have hlen0 : ∀ x ∈ x0 :: rest, x.length = x0.length := fun x hx => (hlen x hx).trans hd.symm
  have hc : clamp_weight_sum ((x0 :: rest).map (bexp_fun Real.exp oracle nu)).sum
      = ((x0 :: rest).map (bexp_fun Real.exp oracle nu)).sum :=
    clamp_weight_sum_of_le hS
  have hpos := weight_sum_pos oracle nu x0 rest
  refine ⟨_, (x0 :: rest).map (fun x => bexp_fun Real.exp oracle nu x /
      ((x0 :: rest).map (bexp_fun Real.exp oracle nu)).sum),
    bary_batch_eq Real.exp oracle nu x0 rest hlen0 h0, ?_, ?_, ?_, ?_, ?_⟩
  · rw [weighted_average_length, hd]
  · simp
  · intro a ha
    obtain ⟨x, _, rfl⟩ := List.mem_map.mp ha
    exact div_nonneg (bexp_fun_pos oracle nu x).le hpos.le
  · rw [sum_map_div]
    exact div_self hpos.ne'
  · intro j hj
    rw [weighted_average_length] at hj
    rw [weighted_average_getD _ _ _ _ j hj, hc, zip_map_coefficients]
    congr 1
    apply List.map_congr_left
    intro x _
    ring

/-- Witness of C2 (amended): one candidate `[1, 2]`, the constant oracle `1`, `nu = 0`. -/
theorem bary_batch_convex_hull_witness :
    ∃ v c, bary_batch Real.exp (fun _ => 1) [[1, 2]] 0 = .ok v ∧ v.length = 2 ∧
      is_convex_combination c [[1, 2]] v :=
  bary_batch_convex_hull (fun _ => 1) 0 [1, 2] [] 2 (by simp) (by norm_num) (by norm_num)

theorem weighted_average_perm {w : List ℝ → ℝ} {xs ys : List (List ℝ)} (h : xs.Perm ys)
    (S : ℝ) (d : ℕ) : weighted_average w S d xs = weighted_average w S d ys := by
  unfold weighted_average
  apply List.map_congr_left
  intro j _
  exact (h.map _).sum_eq

/-- C3, as stated, fails: with the sum of squares as oracle the candidates `[0], [1]` are
rejected by the guard on the first candidate, and the same candidates in the order `[1], [0]`
are accepted and a vector is returned. -/
theorem bary_batch_permutation_counterexample :
    List.Perm [[(0 : ℝ)], [1]] [[1], [0]] ∧
      bary_batch Real.exp sum_of_squares [[0], [1]] 3
        = .error (.invalid_argument "Oracle function must evaluate as a scalar value.") ∧
      ∃ v, bary_batch Real.exp sum_of_squares [[1], [0]] 3 = .ok v := by
  refine ⟨List.Perm.swap _ _ _, ?_, ?_⟩
  · simp [bary_batch, sum_of_squares]
  · have h := bary_batch_eq Real.exp sum_of_squares 3 [1] [[0]] (by simp)
      (by simp [sum_of_squares])
    exact ⟨_, h⟩

/-- C3, amended: for two orderings of the same non-empty list of candidates of one length
such that the oracle is zero on the first candidate of both or of neither, `bary_batch` has
the same outcome: the same vector, or the same error. -/
theorem bary_batch_permutation (oracle : List ℝ → ℝ) (nu : ℝ) (x0 y0 : List ℝ)
    (xt yt : List (List ℝ)) (d : ℕ) (hperm : (x0 :: xt).Perm (y0 :: yt))
    (hlen : ∀ x ∈ x0 :: xt, x.length = d) (hguard : oracle x0 = 0 ↔ oracle y0 = 0) :
    bary_batch Real.exp oracle (y0 :: yt) nu = bary_batch Real.exp oracle (x0 :: xt) nu := by
  by_cases hx : oracle x0 = 0
  · have hy : oracle y0 = 0 := hguard.mp hx
    simp [bary_batch, hx, hy]
  · have hy : oracle y0 ≠ 0 := fun h => hx (hguard.mpr h)
    have hxd : x0.length = d := hlen x0 (List.mem_cons_self _ _)
    have hyd : y0.length = d := hlen y0 (hperm.mem_iff.mpr (List.mem_cons_self _ _))
    have hlenx : ∀ x ∈ x0 :: xt, x.length = x0.length :=
      fun x h => (hlen x h).trans hxd.symm
    have hleny : ∀ y ∈ y0 :: yt, y.length = y0.length :=
      fun y h => (hlen y (hperm.mem_iff.mpr h)).trans hyd.symm
    rw [bary_batch_eq Real.exp oracle nu x0 xt hlenx hx,
      bary_batch_eq Real.exp oracle nu y0 yt hleny hy, hxd, hyd,
      (hperm.map (bexp_fun Real.exp oracle nu)).sum_eq, weighted_average_perm hperm]

/-- Witness of C3 (amended): the candidates `[1], [2]` and `[2], [1]` with the sum of squares
as oracle. -/
theorem bary_batch_permutation_witness :
    bary_batch Real.exp sum_of_squares [[2], [1]] 3
      = bary_batch Real.exp sum_of_squares [[1], [2]] 3 :=
  bary_batch_permutation sum_of_squares 3 [1] [2] [[2]] [[1]] 1 (List.Perm.swap _ _ _)
    (by simp) (by simp [sum_of_squares])

/-- C4: when the oracle is exactly zero on the first candidate, `bary_batch` throws the
exception of its oracle guard (`std::invalid_argument` with the message "Oracle function must
evaluate as a scalar value.") and returns no vector, whatever the other candidates and `nu`
are. -/
theorem bary_batch_zero_oracle (oracle : List ℝ → ℝ) (nu : ℝ) (x0 : List ℝ)
    (rest : List (List ℝ)) (h : oracle x0 = 0) :
    bary_batch Real.exp oracle (x0 :: rest) nu
      = .error (.invalid_argument "Oracle function must evaluate as a scalar value.") := by
  simp [bary_batch, h]

/-- Witness of C4: the sum of squares is zero on the first candidate `[0, 0]`. -/
theorem bary_batch_zero_oracle_witness :
    bary_batch Real.exp sum_of_squares [[0, 0], [1, 1]] 3
      = .error (.invalid_argument "Oracle function must evaluate as a scalar value.") :=
  bary_batch_zero_oracle sum_of_squares 3 [0, 0] [[1, 1]] (by simp [sum_of_squares])

/-- C5: on the empty list of candidates `bary_batch` throws nothing: it reads `xs[0]`, a
subscript outside the bounds of the list, for every oracle and `nu`. -/
theorem bary_batch_empty (oracle : List ℝ → ℝ) (nu : ℝ) :
    bary_batch Real.exp oracle [] nu = .error .out_of_bounds ∧
      ∀ what, bary_batch Real.exp oracle [] nu ≠ .error (.invalid_argument what) := by
  simp [bary_batch]

/-- C6: on the candidates `[1, 1]` and `[1, 1, 1]`, with an oracle that is not zero on
`[1, 1]`, `bary_batch` throws nothing: the loop writes the third component of the second
candidate to `barycenter[2]`, outside the two components `barycenter` has. -/
theorem bary_batch_length_mismatch :
    bary_batch Real.exp (fun _ => 1) [[1, 1], [1, 1, 1]] 3 = .error .out_of_bounds ∧
      ∃ v, bary_batch Real.exp (fun _ => 1) [[1, 1, 1], [1, 1]] 3 = .ok v := by
  constructor
  · simp [bary_batch, aggregate, add_candidates, add_candidate]
  · simp [bary_batch, aggregate, add_candidates, add_candidate]

theorem x_weights_logged_eq {R : Type} [LinearOrderedField R] (expf : R → R)
    (oracle : List R → R) (nu : R) (xs : List (List R)) (log : Multiset (List R)) :
    x_weights_logged expf oracle nu xs log
      = (x_weights expf oracle nu xs, (xs : Multiset (List R)) + log) := by
  induction xs generalizing log with
  | nil => simp [x_weights_logged, x_weights]
  | cons x rest ih =>
    have e : ((x :: rest : List (List R)) : Multiset (List R)) + log
        = (rest : Multiset (List R)) + x ::ₘ log := by
      rw [← Multiset.cons_coe, Multiset.cons_add, Multiset.add_cons]
    simp [x_weights_logged, call_oracle, ih, x_weights, bexp_fun, e]

/-- Logging the oracle invocations does not change the outcome of `bary_batch`. -/
theorem bary_batch_logged_fst {R : Type} [LinearOrderedField R] (expf : R → R)
    (oracle : List R → R) (xs : List (List R)) (nu : R) :
    (bary_batch_logged expf oracle xs nu).1 = bary_batch expf oracle xs nu := by
  cases xs with
  | nil => rfl
  | cons x0 rest =>
    by_cases h : oracle x0 = 0
    · simp [bary_batch_logged, bary_batch, call_oracle, h]
    · simp [bary_batch_logged, bary_batch, call_oracle, h, x_weights_logged_eq]

/-- The log of a call of `bary_batch` that passes the guard: the first candidate, from the
guard, and every candidate, from its task. -/
theorem bary_batch_logged_snd {R : Type} [LinearOrderedField R] (expf : R → R)
    (oracle : List R → R) (x0 : List R) (rest : List (List R)) (nu : R) (h : oracle x0 ≠ 0) :
    (bary_batch_logged expf oracle (x0 :: rest) nu).2
      = x0 ::ₘ ((x0 :: rest : List (List R)) : Multiset (List R)) := by
  simp only [bary_batch_logged, call_oracle, h, if_false, x_weights_logged_eq]
  rw [Multiset.add_cons, add_zero]

/-- C7, as stated, fails: the successful call on the single candidate `[5]` invokes the
oracle twice, both times on `[5]`. -/
theorem bary_batch_oracle_calls_counterexample :
    (bary_batch_logged Real.exp (fun _ => 1) [[5]] 0).1 = .ok [5] ∧
      (bary_batch_logged Real.exp (fun _ => 1) [[5]] 0).2 = [5] ::ₘ [5] ::ₘ 0 ∧
      Multiset.card (bary_batch_logged Real.exp (fun _ => 1) [[5]] 0).2
        ≠ [[(5 : ℝ)]].length := by
  have h1 : (bary_batch_logged Real.exp (fun _ => 1) [[5]] 0).1 = .ok [5] := by
    rw [bary_batch_logged_fst]
    norm_num [bary_batch, x_weights, bexp_fun, aggregate, accumulate, clamp_weight_sum,
      add_candidates, add_candidate]
  have h2 : (bary_batch_logged Real.exp (fun _ => 1) [[5]] 0).2 = [5] ::ₘ [5] ::ₘ 0 := by
    rw [bary_batch_logged_snd Real.exp (fun _ => 1) [5] [] 0 one_ne_zero]
    rfl
  refine ⟨h1, h2, ?_⟩
  rw [h2]
  simp

/-- C7, amended: in a successful call of `bary_batch` on `n` candidates the oracle is invoked
`n + 1` times: once on the first candidate by the guard, and once on each candidate by the
task of that candidate. -/
theorem bary_batch_oracle_calls (oracle : List ℝ → ℝ) (nu : ℝ) (xs : List (List ℝ))
    (v : List ℝ) (hok : (bary_batch_logged Real.exp oracle xs nu).1 = .ok v) :
    ∃ x0 rest, xs = x0 :: rest ∧
      (bary_batch_logged Real.exp oracle xs nu).2 = x0 ::ₘ (xs : Multiset (List ℝ)) ∧
      Multiset.card (bary_batch_logged Real.exp oracle xs nu).2 = xs.length + 1 := by
  cases xs with
  | nil => simp [bary_batch_logged] at hok
  | cons x0 rest =>
    have h0 : oracle x0 ≠ 0 := by
      intro h
      simp [bary_batch_logged, call_oracle, h] at hok
    have hlog := bary_batch_logged_snd Real.exp oracle x0 rest nu h0
    refine ⟨x0, rest, rfl, hlog, ?_⟩
    rw [hlog]
    simp

/-- Witness of C7 (amended): the call on the single candidate `[5]` with the constant oracle
`1` and `nu = 0`, which returns `[5]`. -/
theorem bary_batch_oracle_calls_witness :
    ∃ x0 rest, [[(5 : ℝ)]] = x0 :: rest ∧
      (bary_batch_logged Real.exp (fun _ => 1) [[5]] 0).2
        = x0 ::ₘ (([[5]] : List (List ℝ)) : Multiset (List ℝ)) ∧
      Multiset.card (bary_batch_logged Real.exp (fun _ => 1) [[5]] 0).2
        = [[(5 : ℝ)]].length + 1 :=
  bary_batch_oracle_calls (fun _ => 1) 0 [[5]] [5] (by
    rw [bary_batch_logged_fst]
    norm_num [bary_batch, x_weights, bexp_fun, aggregate, accumulate, clamp_weight_sum,
      add_candidates, add_candidate])

theorem exp_neg_lt_floor (t : ℝ) (ht : 1e11 ≤ t) : Real.exp (-t) < 1e-11 := by
  have h1 : t + 1 ≤ Real.exp t := Real.add_one_le_exp t
  have h2 : (1e11 : ℝ) < Real.exp t := by linarith
  have h3 : (0 : ℝ) < 1e11 := by norm_num
  rw [Real.exp_neg]
  calc (Real.exp t)⁻¹ < (1e11 : ℝ)⁻¹ := inv_strictAnti₀ h3 h2
    _ = 1e-11 := by norm_num

/-- C8: the divisor of the normalisation is `max S 1e-10`, which is never zero; on a non-empty
list of candidates of one length `d` that passes the guard and has a weight sum `S` below
`1e-10`, `bary_batch` returns a vector of length `d` whose `j`-th component is the sum over
the candidates `x` of `x[j] * exp(-nu * oracle x) / 1e-10`. -/
theorem bary_batch_clamped (oracle : List ℝ → ℝ) (nu : ℝ) (x0 : List ℝ)
    (rest : List (List ℝ)) (d : ℕ) (hlen : ∀ x ∈ x0 :: rest, x.length = d)
    (h0 : oracle x0 ≠ 0)
    (hS : ((x0 :: rest).map (fun x => Real.exp (-nu * oracle x))).sum < 1e-10) :
    (∀ T : ℝ, clamp_weight_sum T = max T 1e-10 ∧ clamp_weight_sum T ≠ 0) ∧
      ∃ v, bary_batch Real.exp oracle (x0 :: rest) nu = .ok v ∧ v.length = d ∧
        ∀ (j : ℕ) (hj : j < v.length),
          v[j] = ((x0 :: rest).map
            (fun x => x.getD j 0 * Real.exp (-nu * oracle x) / 1e-10)).sum := by
  have hd : x0.length = d := hlen x0 (List.mem_cons_self _ _)
  have hlen0 : ∀ x ∈ x0 :: rest, x.length = x0.length := fun x hx => (hlen x hx).trans hd.symm
  refine ⟨fun T => ⟨clamp_weight_sum_eq_max T, (clamp_weight_sum_pos T).ne'⟩,
    _, bary_batch_eq Real.exp oracle nu x0 rest hlen0 h0, ?_, ?_⟩
  · rw [weighted_average_length, hd]
  · intro j hj
    rw [weighted_average_getElem]
    have hc : clamp_weight_sum ((x0 :: rest).map (bexp_fun Real.exp oracle nu)).sum
        = 1e-10 :=
      clamp_weight_sum_of_lt hS
    rw [hc]
    rfl

/-- Witness of C8: one candidate `[1, 2]`, the constant oracle `1` and `nu = 1e11`, for which
the only weight is `exp(-1e11)`, below `1e-10`. -/
theorem bary_batch_clamped_witness :
    (∀ T : ℝ, clamp_weight_sum T = max T 1e-10 ∧ clamp_weight_sum T ≠ 0) ∧
      ∃ v, bary_batch Real.exp (fun _ => 1) [[1, 2]] 1e11 = .ok v ∧ v.length = 2 ∧
        ∀ (j : ℕ) (hj : j < v.length),
          v[j] = ([[1, 2]].map
            (fun x : List ℝ => x.getD j 0 * Real.exp (-1e11 * 1) / 1e-10)).sum :=
  bary_batch_clamped (fun _ => 1) 1e11 [1, 2] [] 2 (by simp) (by norm_num) (by
    have h := exp_neg_lt_floor 1e11 le_rfl
    have e : (1e-11 : ℝ) < 1e-10 := by norm_num
    simpa using h.trans e)

theorem exp_neg_three_bounds : (1e-10 : ℝ) ≤ Real.exp (-3) ∧ Real.exp (-3) ≤ 1 / 4 := by
  have h1 : (3 : ℝ) + 1 ≤ Real.exp 3 := Real.add_one_le_exp 3
  have h2 : Real.exp 3 < 27 := by
    have e : Real.exp 3 = Real.exp 1 ^ 3 := by
      rw [← Real.exp_nat_mul]
      norm_num
    have h3 : Real.exp 1 < 3 := lt_trans Real.exp_one_lt_d9 (by norm_num)
    have h4 : (0 : ℝ) ≤ Real.exp 1 := (Real.exp_pos 1).le
    rw [e]
    nlinarith [mul_self_nonneg (Real.exp 1), mul_nonneg h4 h4]
  have hpos : (0 : ℝ) < Real.exp 3 := Real.exp_pos 3
  rw [Real.exp_neg]
  constructor
  · calc (1e-10 : ℝ) ≤ (27 : ℝ)⁻¹ := by norm_num
      _ ≤ (Real.exp 3)⁻¹ := (inv_strictAnti₀ hpos h2).le
  · calc (Real.exp 3)⁻¹ ≤ (4 : ℝ)⁻¹ := inv_anti₀ (by norm_num) (by linarith)
      _ = 1 / 4 := by norm_num

theorem exp_neg_six : Real.exp (-6) = Real.exp (-3) * Real.exp (-3) := by
  rw [← Real.exp_add]
  norm_num

/-- C9: with the sum of squares as oracle, the candidates `[1,1]`, `[-1,1]`, `[0,-1]` and
`nu = 3`, the weights are `exp(-6)`, `exp(-6)`, `exp(-3)`, `bary_batch` returns
`[0, (2*exp(-6) - exp(-3)) / (2*exp(-6) + exp(-3))]`, and the Euclidean distance of that
point to `[0,-1]` is strictly smaller than its distance to `[1,1]` and to `[-1,1]`. -/
theorem bary_batch_example :
    x_weights Real.exp sum_of_squares 3 [[1, 1], [-1, 1], [0, -1]]
        = [Real.exp (-6), Real.exp (-6), Real.exp (-3)] ∧
      bary_batch Real.exp sum_of_squares [[1, 1], [-1, 1], [0, -1]] 3
        = .ok [0, (2 * Real.exp (-6) - Real.exp (-3)) / (2 * Real.exp (-6) + Real.exp (-3))] ∧
      Real.sqrt (sq_dist
          [0, (2 * Real.exp (-6) - Real.exp (-3)) / (2 * Real.exp (-6) + Real.exp (-3))] [0, -1])
        < Real.sqrt (sq_dist
          [0, (2 * Real.exp (-6) - Real.exp (-3)) / (2 * Real.exp (-6) + Real.exp (-3))] [1, 1]) ∧
      Real.sqrt (sq_dist
          [0, (2 * Real.exp (-6) - Real.exp (-3)) / (2 * Real.exp (-6) + Real.exp (-3))] [0, -1])
        < Real.sqrt (sq_dist
          [0, (2 * Real.exp (-6) - Real.exp (-3)) / (2 * Real.exp (-6) + Real.exp (-3))]
          [-1, 1]) := by
  have hw : x_weights Real.exp sum_of_squares 3 [[1, 1], [-1, 1], [0, -1]]
      = [Real.exp (-6), Real.exp (-6), Real.exp (-3)] := by
    norm_num [x_weights, bexp_fun, sum_of_squares]
  have hb := exp_neg_three_bounds
  have hb0 : 0 < Real.exp (-3) := Real.exp_pos _
  have ha0 : 0 < Real.exp (-6) := Real.exp_pos _
  have hsum : ([[1, 1], [-1, 1], [0, -1]].map (bexp_fun Real.exp sum_of_squares 3)).sum
      = 2 * Real.exp (-6) + Real.exp (-3) := by
    have := hw
    unfold x_weights at this
    rw [this]
    simp
    ring
  have hS : (1e-10 : ℝ) ≤ 2 * Real.exp (-6) + Real.exp (-3) := by linarith [hb.1]
  have hne : 2 * Real.exp (-6) + Real.exp (-3) ≠ 0 := by positivity
  have hy : (2 * Real.exp (-6) - Real.exp (-3)) / (2 * Real.exp (-6) + Real.exp (-3)) < 0 := by
    apply div_neg_of_neg_of_pos _ (by positivity)
    rw [exp_neg_six]
    nlinarith [hb.2]
  refine ⟨hw, ?_, ?_, ?_⟩
  · rw [bary_batch_eq Real.exp sum_of_squares 3 [1, 1] [[-1, 1], [0, -1]] (by simp)
      (by norm_num [sum_of_squares]), hsum, clamp_weight_sum_of_le hS]
    have hw1 : bexp_fun Real.exp sum_of_squares 3 [1, 1] = Real.exp (-6) := by
      norm_num [bexp_fun, sum_of_squares]
    have hw2 : bexp_fun Real.exp sum_of_squares 3 [-1, 1] = Real.exp (-6) := by
      norm_num [bexp_fun, sum_of_squares]
    have hw3 : bexp_fun Real.exp sum_of_squares 3 [0, -1] = Real.exp (-3) := by
      norm_num [bexp_fun, sum_of_squares]
    simp [weighted_average, List.range_succ, hw1, hw2, hw3]
    field_simp
    ring
  · apply Real.sqrt_lt_sqrt
    · simp [sq_dist]
      positivity
    · simp [sq_dist]
      nlinarith [hy]
  · apply Real.sqrt_lt_sqrt
    · simp [sq_dist]
      positivity
    · simp [sq_dist]
      nlinarith [hy]

/-! ### The limit of large `nu` -/

theorem tendsto_exp_neg_mul (δ : ℝ) (hδ : 0 < δ) :
    Filter.Tendsto (fun nu : ℝ => Real.exp (-nu * δ)) Filter.atTop (nhds 0) := by
  have h1 : Filter.Tendsto (fun nu : ℝ => -nu * δ) Filter.atTop Filter.atBot :=
    Filter.Tendsto.atBot_mul_const hδ Filter.tendsto_neg_atTop_atBot
  exact Real.tendsto_exp_atBot.comp h1

theorem tendsto_costlier_sum (g c : List ℝ → ℝ) (ck : ℝ) (l : List (List ℝ))
    (h : ∀ x ∈ l, ck < c x) :
    Filter.Tendsto (fun nu : ℝ => (l.map (fun x => g x * Real.exp (-nu * (c x - ck)))).sum)
      Filter.atTop (nhds 0) := by
  have key := tendsto_list_sum (f := fun (x : List ℝ) (nu : ℝ) => g x * Real.exp (-nu * (c x - ck)))
    (x := Filter.atTop) (a := fun _ => (0 : ℝ)) l (by
      intro x hx
      have h1 := tendsto_exp_neg_mul (c x - ck) (sub_pos.mpr (h x hx))
      simpa using h1.const_mul (g x))
  simpa using key

theorem tendsto_split_sum (g c : List ℝ → ℝ) (l1 l2 : List (List ℝ)) (xk : List ℝ)
    (h1 : ∀ x ∈ l1, c xk < c x) (h2 : ∀ x ∈ l2, c xk < c x) :
    Filter.Tendsto
      (fun nu : ℝ => ((l1 ++ xk :: l2).map (fun x => g x * Real.exp (-nu * (c x - c xk)))).sum)
      Filter.atTop (nhds (g xk)) := by
  have t1 := tendsto_costlier_sum g c (c xk) l1 h1
  have t2 := tendsto_costlier_sum g c (c xk) l2 h2
  have t3 : Filter.Tendsto (fun _ : ℝ => g xk) Filter.atTop (nhds (g xk)) :=
    tendsto_const_nhds
  have t := t1.add (t3.add t2)
  simp only [zero_add, add_zero] at t
  refine t.congr (fun nu => ?_)
  simp

theorem tendsto_shifted_sum (g c : List ℝ → ℝ) (xs : List (List ℝ)) (k : ℕ)
    (hk : k < xs.length)
    (hmin : ∀ i (hi : i < xs.length), i ≠ k → c xs[k] < c xs[i]) :
    Filter.Tendsto
      (fun nu : ℝ => (xs.map (fun x => g x * Real.exp (-nu * (c x - c xs[k])))).sum)
      Filter.atTop (nhds (g xs[k])) := by
  have h1 : ∀ x ∈ xs.take k, c xs[k] < c x := by
    intro x hx
    obtain ⟨i, hi, rfl⟩ := List.mem_take_iff_getElem.mp hx
    have hik : i < k := lt_of_lt_of_le hi (min_le_left _ _)
    exact hmin i (lt_of_lt_of_le hi (min_le_right _ _)) hik.ne
  have h2 : ∀ x ∈ xs.drop (k + 1), c xs[k] < c x := by
    intro x hx
    obtain ⟨i, hi, rfl⟩ := List.mem_drop_iff_getElem.mp hx
    exact hmin (k + 1 + i) (by omega) (by omega)
  have t := tendsto_split_sum g c (xs.take k) (xs.drop (k + 1)) xs[k] h1 h2
  rw [List.getElem_cons_drop, List.take_append_drop] at t
  exact t

theorem shifted_sum_eq (g c : List ℝ → ℝ) (ck nu : ℝ) (xs : List (List ℝ)) :
    (xs.map (fun x => g x * Real.exp (-nu * (c x - ck)))).sum
      = (xs.map (fun x => g x * Real.exp (-nu * c x))).sum * Real.exp (nu * ck) := by
  rw [← List.sum_map_mul_right]
  congr 1
  apply List.map_congr_left
  intro x _
  rw [mul_assoc, ← Real.exp_add]
  congr 2
  ring

theorem weight_sum_ge_one (oracle : List ℝ → ℝ) (nu : ℝ) (xs : List (List ℝ)) (k : ℕ)
    (hk : k < xs.length) (hle : oracle xs[k] ≤ 0) (hnu : 0 ≤ nu) :
    1 ≤ (xs.map (bexp_fun Real.exp oracle nu)).sum := by
  have hmem : bexp_fun Real.exp oracle nu xs[k] ∈ xs.map (bexp_fun Real.exp oracle nu) :=
    List.mem_map.mpr ⟨xs[k], List.getElem_mem _, rfl⟩
  have hnon : ∀ a ∈ xs.map (bexp_fun Real.exp oracle nu), 0 ≤ a := by
    intro a ha
    obtain ⟨x, _, rfl⟩ := List.mem_map.mp ha
    exact (bexp_fun_pos oracle nu x).le
  have h1 : 1 ≤ bexp_fun Real.exp oracle nu xs[k] := by
    unfold bexp_fun
    apply Real.one_le_exp
    nlinarith
  exact h1.trans (List.single_le_sum hnon _ hmem)

theorem bary_batch_single_clamped (nu : ℝ) (hnu : 1e11 ≤ nu) :
    ∃ y, bary_batch Real.exp sum_of_squares [[1]] nu = .ok [y] ∧ y ≤ 1 / 10 := by
  have hlt := exp_neg_lt_floor nu hnu
  have hw : bexp_fun Real.exp sum_of_squares nu [1] = Real.exp (-nu) := by
    simp [bexp_fun, sum_of_squares]
  have hc : clamp_weight_sum ([[1]].map (bexp_fun Real.exp sum_of_squares nu)).sum = 1e-10 := by
    apply clamp_weight_sum_of_lt
    have e : (1e-11 : ℝ) < 1e-10 := by norm_num
    simpa [hw] using hlt.trans e
  refine ⟨Real.exp (-nu) / 1e-10, ?_, ?_⟩
  · rw [bary_batch_eq Real.exp sum_of_squares nu [1] [] (by simp) (by simp [sum_of_squares]), hc]
    simp [weighted_average, hw, List.range_succ]
  · rw [div_le_iff₀ (by norm_num)]
    refine hlt.le.trans ?_
    norm_num

/-- C10, as stated, fails in two ways.  With the sum of squares as oracle, the candidates
`[0], [10]` have the costs `0` and `100`, the lowest cost first, and `bary_batch` throws for
every `nu`; the single candidate `[1]`, of cost `1`, has a weight below `1e-10` for large
`nu`, the weight sum is clamped, and what `bary_batch` returns does not tend to `[1]`. -/
theorem bary_batch_tendsto_counterexample :
    (sum_of_squares [(0 : ℝ)] < sum_of_squares [(10 : ℝ)] ∧
      ∀ nu : ℝ, bary_batch Real.exp sum_of_squares [[0], [10]] nu
        = .error (.invalid_argument "Oracle function must evaluate as a scalar value.")) ∧
    ¬ ∃ f : ℝ → List ℝ,
        (∀ nu : ℝ, bary_batch Real.exp sum_of_squares [[1]] nu = .ok (f nu)) ∧
        Filter.Tendsto (fun nu => (f nu).getD 0 0) Filter.atTop
          (nhds (([[1]] : List (List ℝ))[0].getD 0 0)) := by
  refine ⟨⟨by norm_num [sum_of_squares], fun nu => by simp [bary_batch, sum_of_squares]⟩, ?_⟩
  rintro ⟨f, hf, ht⟩
  have hlim : (([[1]] : List (List ℝ))[0].getD 0 0) = 1 := by simp
  rw [hlim] at ht
  have h1 : ∀ᶠ nu in Filter.atTop, (1 / 2 : ℝ) < (f nu).getD 0 0 :=
    ht.eventually (lt_mem_nhds (by norm_num))
  obtain ⟨nu, hnu, hbig⟩ := (h1.and (Filter.eventually_ge_atTop (1e11 : ℝ))).exists
  obtain ⟨y, hy, hyle⟩ := bary_batch_single_clamped nu hbig
  have hfy : f nu = [y] := by
    have := (hf nu).symm.trans hy
    exact Except.ok.inj this
  rw [hfy] at hnu
  simp at hnu
  linarith

/-- C10, amended: on a non-empty list of candidates of one length `d` in which the candidate
of index `k` has a cost strictly lower than every other candidate, when that lowest cost is
at most zero and the cost of the first candidate is not zero, `bary_batch` returns a vector
for every `nu`, and that vector converges, component by component, to the candidate of index
`k` as `nu` tends to infinity. -/
theorem bary_batch_tendsto (oracle : List ℝ → ℝ) (x0 : List ℝ) (rest : List (List ℝ))
    (d k : ℕ) (hk : k < (x0 :: rest).length) (hlen : ∀ x ∈ x0 :: rest, x.length = d)
    (hmin : ∀ i (hi : i < (x0 :: rest).length), i ≠ k →
      oracle (x0 :: rest)[k] < oracle (x0 :: rest)[i])
    (hle : oracle (x0 :: rest)[k] ≤ 0) (h0 : oracle x0 ≠ 0) :
    ∃ f : ℝ → List ℝ,
      (∀ nu : ℝ, bary_batch Real.exp oracle (x0 :: rest) nu = .ok (f nu) ∧
        (f nu).length = d) ∧
      ∀ j, j < d → Filter.Tendsto (fun nu => (f nu).getD j 0) Filter.atTop
        (nhds ((x0 :: rest)[k].getD j 0)) := by
  have hd : x0.length = d := hlen x0 (List.mem_cons_self _ _)
  have hlen0 : ∀ x ∈ x0 :: rest, x.length = x0.length := fun x hx => (hlen x hx).trans hd.symm
  refine ⟨fun nu => weighted_average (bexp_fun Real.exp oracle nu)
    (clamp_weight_sum ((x0 :: rest).map (bexp_fun Real.exp oracle nu)).sum) x0.length
    (x0 :: rest), ?_, ?_⟩
  · intro nu
    exact ⟨bary_batch_eq Real.exp oracle nu x0 rest hlen0 h0,
      by rw [weighted_average_length, hd]⟩
  · intro j hj
    have hjd : j < x0.length := hd.symm ▸ hj
    have tN := tendsto_shifted_sum (fun x => x.getD j 0) oracle (x0 :: rest) k hk hmin
    have tS := tendsto_shifted_sum (fun _ => 1) oracle (x0 :: rest) k hk hmin
    have tdiv := tN.div tS one_ne_zero
    rw [div_one] at tdiv
    refine tdiv.congr' ?_
    filter_upwards [Filter.eventually_ge_atTop (0 : ℝ)] with nu hnu
    have hone := weight_sum_ge_one oracle nu (x0 :: rest) k hk hle hnu
    have hfloor : (1e-10 : ℝ) ≤ ((x0 :: rest).map (bexp_fun Real.exp oracle nu)).sum :=
      le_trans (by norm_num) hone
    simp only [Pi.div_apply]
    rw [weighted_average_getD _ _ _ _ j hjd, clamp_weight_sum_of_le hfloor,
      shifted_sum_eq, shifted_sum_eq, mul_div_mul_right _ _ (Real.exp_pos _).ne', sum_map_div]
    have hfun : bexp_fun Real.exp oracle nu = fun x => Real.exp (-nu * oracle x) := rfl
    rw [hfun]
    simp

/-- Witness of C10 (amended): the candidates `[1], [0]` with the sum of squares as oracle;
the candidate `[0]`, of cost `0`, is the second one. -/
theorem bary_batch_tendsto_witness :
    ∃ f : ℝ → List ℝ,
      (∀ nu : ℝ, bary_batch Real.exp sum_of_squares [[1], [0]] nu = .ok (f nu) ∧
        (f nu).length = 1) ∧
      ∀ j, j < 1 → Filter.Tendsto (fun nu => (f nu).getD j 0) Filter.atTop
        (nhds (([[1], [0]] : List (List ℝ))[1].getD j 0)) :=
  bary_batch_tendsto sum_of_squares [1] [[0]] 1 1 (by simp) (by simp)
    (by
      intro i hi hne
      have hi0 : i = 0 := by
        simp at hi
        omega
      subst hi0
      simp [sum_of_squares])
    (by simp [sum_of_squares]) (by simp [sum_of_squares])

end Batch

/-! ## The recursive barycenter: the loop -/

section Loop

variable {R : Type} [LinearOrderedField R]

theorem draw_curiosity_length (noise : Nat → R) (zeta : R) (gen size : Nat)
    (prev : Option (List R)) : (draw_curiosity noise zeta gen size prev).length = size := by
  cases prev <;> simp [draw_curiosity]

theorem update_body_xhat_length (expf : R → R) (oracle : List R → R) (nu zeta lambda_ : R)
    (noise : Nat → R) (s : State R) :
    (update_body expf oracle nu zeta lambda_ noise s).xhat.length = s.xhat.length := by
  simp [update_body, draw_curiosity_length]

theorem update_body_step (expf : R → R) (oracle : List R → R) (nu zeta lambda_ : R)
    (noise : Nat → R) (s : State R) :
    ∃ st, (update_body expf oracle nu zeta lambda_ noise s).step = some st ∧
      st.length = s.xhat.length := by
  refine ⟨_, rfl, ?_⟩
  simp [draw_curiosity_length]

/-- The sizes that the check of lines 82-86 compares agree: a previous step, when there is
one, has the size of the estimate. -/
theorem update_body_sized (expf : R → R) (oracle : List R → R) (nu zeta lambda_ : R)
    (noise : Nat → R) (s : State R) (p : List R)
    (hp : (update_body expf oracle nu zeta lambda_ noise s).step = some p) :
    p.length = (update_body expf oracle nu zeta lambda_ noise s).xhat.length := by
  obtain ⟨st, hst, hlen⟩ := update_body_step expf oracle nu zeta lambda_ noise s
  rw [hst] at hp
  rw [← Option.some.inj hp, hlen, update_body_xhat_length]

theorem update_eq_ok (expf : R → R) (oracle : List R → R) (nu zeta lambda_ : R)
    (noise : Nat → R) (s : State R)
    (h : ∀ p, s.step = some p → p.length = s.xhat.length) :
    update expf oracle nu zeta lambda_ noise s
      = .ok (update_body expf oracle nu zeta lambda_ noise s) := by
  unfold update
  cases hs : s.step with
  | none => rfl
  | some p => simp [h p hs]

theorem loop_eq (expf : R → R) (oracle : List R → R) (nu zeta lambda_ : R)
    (noise : Nat → R) (iterations : Int) (n : Nat) :
    ∀ (i : Int) (s : State R), (iterations - i).toNat = n →
      (∀ p, s.step = some p → p.length = s.xhat.length) →
      loop expf oracle nu zeta lambda_ noise iterations i s
        = .ok ((update_body expf oracle nu zeta lambda_ noise)^[n + 1] s) := by
  induction n with
  | zero =>
    intro i s hn hs
    have hi : i ≥ iterations := by omega
    rw [loop, update_eq_ok expf oracle nu zeta lambda_ noise s hs]
    simp [hi]
  | succ n ih =>
    intro i s hn hs
    have hi : ¬ i ≥ iterations := by omega
    rw [loop, update_eq_ok expf oracle nu zeta lambda_ noise s hs]
    simp only [hi, if_false]
    rw [ih (i + 1) _ (by omega) (update_body_sized expf oracle nu zeta lambda_ noise s)]
    rfl

/-- The loop of `bary_recursive` returns, and what it returns is the initial state after
`max 1 iterations` passes through the body of `update`. -/
theorem bary_recursive_eq (expf : R → R) (oracle : List R → R) (x0 : List R)
    (nu zeta lambda_ : R) (noise : Nat → R) (iterations : Int) :
    bary_recursive expf oracle x0 nu zeta lambda_ noise iterations
      = .ok ((update_body expf oracle nu zeta lambda_ noise)^[(max 1 iterations).toNat]
          (initial_state x0)) := by
  unfold bary_recursive
  rw [loop_eq expf oracle nu zeta lambda_ noise iterations (iterations - 1).toNat 1
    (initial_state x0) rfl (by simp [initial_state])]
  congr 2
  omega

theorem iterate_xhat_length (expf : R → R) (oracle : List R → R) (x0 : List R)
    (nu zeta lambda_ : R) (noise : Nat → R) (n : Nat) :
    ((update_body expf oracle nu zeta lambda_ noise)^[n] (initial_state x0)).xhat.length
      = x0.length := by
  induction n with
  | zero => rfl
  | succ n ih => rw [Function.iterate_succ_apply', update_body_xhat_length, ih]

theorem iterate_step_length (expf : R → R) (oracle : List R → R) (x0 : List R)
    (nu zeta lambda_ : R) (noise : Nat → R) (n : Nat) (p : List R)
    (hp : ((update_body expf oracle nu zeta lambda_ noise)^[n] (initial_state x0)).step
      = some p) : p.length = x0.length := by
  cases n with
  | zero => simp [initial_state] at hp
  | succ n =>
    rw [Function.iterate_succ_apply'] at hp
    rw [update_body_sized expf oracle nu zeta lambda_ noise _ p hp, update_body_xhat_length,
      iterate_xhat_length]

theorem iterate_probes_length (expf : R → R) (oracle : List R → R) (x0 : List R)
    (nu zeta lambda_ : R) (noise : Nat → R) (n : Nat) :
    ((update_body expf oracle nu zeta lambda_ noise)^[n] (initial_state x0)).probes.length
      = n := by
  induction n with
  | zero => rfl
  | succ n ih =>
    rw [Function.iterate_succ_apply']
    simp [update_body, ih]

theorem iterate_gen (expf : R → R) (oracle : List R → R) (x0 : List R)
    (nu zeta lambda_ : R) (noise : Nat → R) (n : Nat) :
    ((update_body expf oracle nu zeta lambda_ noise)^[n] (initial_state x0)).gen
      = n * x0.length := by
  induction n with
  | zero => simp [initial_state]
  | succ n ih =>
    rw [Function.iterate_succ_apply']
    simp only [update_body, ih, iterate_xhat_length]
    ring

end Loop

/-! ## The recursive barycenter and the update of the specification -/

section Refinement

variable {R : Type} [LinearOrderedField R]

theorem draw_curiosity_some (noise : Nat → R) (zeta : R) (gen : Nat) (p : List R) :
    draw_curiosity noise zeta gen p.length (some p)
      = List.zipWith (fun nj pj => nj - zeta * pj) (samples noise gen p.length) p := by
  apply List.ext_getElem
  · simp [draw_curiosity, samples]
  · intro i h1 h2
    have hi : i < p.length := by simpa [draw_curiosity] using h1
    simp [draw_curiosity, samples, List.getD, List.getElem?_eq_getElem hi]

theorem update_body_spec (expf : R → R) (oracle : List R → R) (nu zeta lambda_ : R)
    (noise : Nat → R) (s : State R)
    (hprev : ∀ p, s.step = some p → p.length = s.xhat.length) :
    ((update_body expf oracle nu zeta lambda_ noise s).m,
      (update_body expf oracle nu zeta lambda_ noise s).xhat,
      (update_body expf oracle nu zeta lambda_ noise s).step)
      = ((spec_update expf oracle nu zeta lambda_ (samples noise s.gen s.xhat.length)
            s.m s.xhat s.step).1,
          (spec_update expf oracle nu zeta lambda_ (samples noise s.gen s.xhat.length)
            s.m s.xhat s.step).2.1,
          some (spec_update expf oracle nu zeta lambda_ (samples noise s.gen s.xhat.length)
            s.m s.xhat s.step).2.2) := by
  cases hs : s.step with
  | none => simp [update_body, spec_update, hs, draw_curiosity, samples, make_probe]
  | some p =>
    have hp := hprev p hs
    simp only [update_body, spec_update, hs, make_probe]
    rw [← hp, draw_curiosity_some]

theorem iterate_spec_run (expf : R → R) (oracle : List R → R) (x0 : List R)
    (nu zeta lambda_ : R) (noise : Nat → R) (k : Nat) :
    (((update_body expf oracle nu zeta lambda_ noise)^[k] (initial_state x0)).m,
      ((update_body expf oracle nu zeta lambda_ noise)^[k] (initial_state x0)).xhat,
      ((update_body expf oracle nu zeta lambda_ noise)^[k] (initial_state x0)).step)
      = spec_run expf oracle nu zeta lambda_ noise x0 k := by
  induction k with
  | zero => rfl
  | succ k ih =>
    rw [Function.iterate_succ_apply', update_body_spec expf oracle nu zeta lambda_ noise _
      (fun p hp => by
        rw [iterate_step_length expf oracle x0 nu zeta lambda_ noise k p hp,
          iterate_xhat_length])]
    rw [iterate_gen, iterate_xhat_length]
    simp only [spec_run, ← ih]

end Refinement

section Recursive

/-- C11: one call of `update` on a state whose previous step, if any, has the size of the
estimate returns the triple `(weightTotal', estimate', step)` that the update of the
specification computes from the noise samples drawn in that call (curiosity, probe, weight,
decayed weight total, step and new estimate); and `bary_recursive` returns the state that the
specification reaches from `(0, x0, none)` by passing the step of each iteration to the next
one as its previous step. -/
theorem bary_recursive_update_spec (oracle : List ℝ → ℝ) (nu zeta lambda_ : ℝ)
    (noise : ℕ → ℝ) (s : State ℝ)
    (hprev : ∀ p, s.step = some p → p.length = s.xhat.length)
    (x0 : List ℝ) (iterations : ℤ) :
    (∃ s1, update Real.exp oracle nu zeta lambda_ noise s = .ok s1 ∧
      s1.gen = s.gen + s.xhat.length ∧
      s1.m = (spec_update Real.exp oracle nu zeta lambda_
        (samples noise s.gen s.xhat.length) s.m s.xhat s.step).1 ∧
      s1.xhat = (spec_update Real.exp oracle nu zeta lambda_
        (samples noise s.gen s.xhat.length) s.m s.xhat s.step).2.1 ∧
      s1.step = some (spec_update Real.exp oracle nu zeta lambda_
        (samples noise s.gen s.xhat.length) s.m s.xhat s.step).2.2) ∧
    ∃ sn, bary_recursive Real.exp oracle x0 nu zeta lambda_ noise iterations = .ok sn ∧
      (sn.m, sn.xhat, sn.step)
        = spec_run Real.exp oracle nu zeta lambda_ noise x0 (max 1 iterations).toNat := by
  have h := update_body_spec Real.exp oracle nu zeta lambda_ noise s hprev
  simp only [Prod.mk.injEq] at h
  exact ⟨⟨_, update_eq_ok Real.exp oracle nu zeta lambda_ noise s hprev, rfl, h.1, h.2.1, h.2.2⟩,
    _, bary_recursive_eq Real.exp oracle x0 nu zeta lambda_ noise iterations,
    iterate_spec_run Real.exp oracle x0 nu zeta lambda_ noise _⟩

/-- Witness of C11: a state with the estimate `[1, 1]` and the previous step `[1/2, 0]`, and
the run of three iterations from `x0 = [1, 1]`, with the sum of squares as oracle. -/
theorem bary_recursive_update_spec_witness :
    (∃ s1, update Real.exp sum_of_squares 3 2 1 (fun _ => 1)
        { m := 1, xhat := [1, 1], step := some [1 / 2, 0], gen := 2, probes := [[1, 1]],
          finite := true } = .ok s1 ∧
      s1.gen = 2 + [(1 : ℝ), 1].length ∧
      s1.m = (spec_update Real.exp sum_of_squares 3 2 1
        (samples (fun _ => 1) 2 [(1 : ℝ), 1].length) 1 [1, 1] (some [1 / 2, 0])).1 ∧
      s1.xhat = (spec_update Real.exp sum_of_squares 3 2 1
        (samples (fun _ => 1) 2 [(1 : ℝ), 1].length) 1 [1, 1] (some [1 / 2, 0])).2.1 ∧
      s1.step = some (spec_update Real.exp sum_of_squares 3 2 1
        (samples (fun _ => 1) 2 [(1 : ℝ), 1].length) 1 [1, 1] (some [1 / 2, 0])).2.2) ∧
    ∃ sn, bary_recursive Real.exp sum_of_squares [1, 1] 3 2 1 (fun _ => 1) 3 = .ok sn ∧
      (sn.m, sn.xhat, sn.step)
        = spec_run Real.exp sum_of_squares 3 2 1 (fun _ => 1) [1, 1] (max 1 (3 : ℤ)).toNat :=
  bary_recursive_update_spec sum_of_squares 3 2 1 (fun _ => 1)
    { m := 1, xhat := [1, 1], step := some [1 / 2, 0], gen := 2, probes := [[1, 1]],
      finite := true }
    (by
      intro p hp
      rw [← Option.some.inj hp]
      rfl) [1, 1] 3

/-! ### The first pass, the number of passes and the sizes -/

theorem update_body_initial (oracle : List ℝ → ℝ) (x0 : List ℝ) (nu zeta lambda_ : ℝ)
    (noise : ℕ → ℝ) :
    update_body Real.exp oracle nu zeta lambda_ noise (initial_state x0)
      = { m := Real.exp (-nu * oracle (make_probe x0 (samples noise 0 x0.length)))
          xhat := make_probe x0 (samples noise 0 x0.length)
          step := some (samples noise 0 x0.length)
          gen := x0.length
          probes := [make_probe x0 (samples noise 0 x0.length)]
          finite := true } := by
  have hw : ∀ t : ℝ, Real.exp t ≠ 0 := fun t => (Real.exp_pos t).ne'
  have hc : draw_curiosity noise zeta 0 x0.length none = samples noise 0 x0.length := rfl
  have hstep : ∀ (l : List ℝ) (t : ℝ), l.map (fun c => c * Real.exp t / Real.exp t) = l := by
    intro l t
    have : (fun c : ℝ => c * Real.exp t / Real.exp t) = id := by
      funext c
      simp [mul_div_assoc, div_self (hw t)]
    rw [this, List.map_id]
  simp only [update_body, initial_state, mul_zero, zero_add, hc, hstep, List.nil_append,
    Bool.true_and]
  simp [make_probe, hw]

/-- C14, as stated, fails: on the input of the claim (`x0 = [1, 1]`, `nu = 3`, `zeta = 0`,
`lambda = 1`, `iterations = 0`), with the sum of squares as oracle and every noise sample equal
to `1`, `bary_recursive` is not rejected: it makes one update, with the probe `[2, 2]`, and
returns the estimate `[2, 2]`. -/
theorem bary_recursive_zero_iterations_counterexample :
    ∃ s, bary_recursive Real.exp sum_of_squares [1, 1] 3 0 1 (fun _ => 1) 0 = .ok s ∧
      s.probes = [[2, 2]] ∧ s.xhat = [2, 2] ∧ s.m = Real.exp (-3 * sum_of_squares [2, 2]) := by
  refine ⟨_, bary_recursive_eq Real.exp sum_of_squares [1, 1] 3 0 1 (fun _ => 1) 0, ?_⟩
  have h1 : (max 1 (0 : ℤ)).toNat = 1 := by decide
  rw [h1, Function.iterate_one, update_body_initial]
  norm_num [make_probe, samples, List.range_succ]

/-- C14, amended: `bary_recursive` called with `iterations <= 0` is not rejected: it throws
nothing, makes exactly one update, from the initial state `(0, x0, none)`, and returns the
weight total and the estimate after that update. -/
theorem bary_recursive_nonpositive_iterations (oracle : List ℝ → ℝ) (x0 : List ℝ)
    (nu zeta lambda_ : ℝ) (noise : ℕ → ℝ) (iterations : ℤ) (h : iterations ≤ 0) :
    ∃ s, bary_recursive Real.exp oracle x0 nu zeta lambda_ noise iterations = .ok s ∧
      s = update_body Real.exp oracle nu zeta lambda_ noise (initial_state x0) ∧
      s.probes.length = 1 := by
  have h1 : (max 1 iterations).toNat = 1 := by omega
  refine ⟨_, bary_recursive_eq Real.exp oracle x0 nu zeta lambda_ noise iterations, ?_, ?_⟩
  · rw [h1, Function.iterate_one]
  · rw [iterate_probes_length, h1]

/-- Witness of C14 (amended): the input of the claim, with `iterations = 0`. -/
theorem bary_recursive_nonpositive_iterations_witness :
    ∃ s, bary_recursive Real.exp sum_of_squares [1, 1] 3 0 1 (fun _ => 1) 0 = .ok s ∧
      s = update_body Real.exp sum_of_squares 3 0 1 (fun _ => 1) (initial_state [1, 1]) ∧
      s.probes.length = 1 :=
  bary_recursive_nonpositive_iterations sum_of_squares [1, 1] 3 0 1 (fun _ => 1) 0 le_rfl

/-- C15: for a positive `iterations` the loop of `bary_recursive` ends, throws nothing, and
returns the initial state after exactly `iterations` passes through the body of `update`; the
oracle has then been evaluated on exactly `iterations` probes. -/
theorem bary_recursive_iteration_count (oracle : List ℝ → ℝ) (x0 : List ℝ)
    (nu zeta lambda_ : ℝ) (noise : ℕ → ℝ) (iterations : ℤ) (h : 0 < iterations) :
    ∃ s, bary_recursive Real.exp oracle x0 nu zeta lambda_ noise iterations = .ok s ∧
      s = (update_body Real.exp oracle nu zeta lambda_ noise)^[iterations.toNat]
        (initial_state x0) ∧
      (s.probes.length : ℤ) = iterations := by
  have h1 : (max 1 iterations).toNat = iterations.toNat := by omega
  refine ⟨_, bary_recursive_eq Real.exp oracle x0 nu zeta lambda_ noise iterations, ?_, ?_⟩
  · rw [h1]
  · rw [iterate_probes_length, h1]
    omega

/-- Witness of C15: five iterations from `x0 = [1, 1]`. -/
theorem bary_recursive_iteration_count_witness :
    ∃ s, bary_recursive Real.exp sum_of_squares [1, 1] 3 0 1 (fun _ => 1) 5 = .ok s ∧
      s = (update_body Real.exp sum_of_squares 3 0 1 (fun _ => 1))^[(5 : ℤ).toNat]
        (initial_state [1, 1]) ∧
      (s.probes.length : ℤ) = 5 :=
  bary_recursive_iteration_count sum_of_squares [1, 1] 3 0 1 (fun _ => 1) 5 (by decide)

/-- C17: in every run of `bary_recursive` the state passed to an update, after any number `k`
of passes, has an estimate of the length of `x0` and, when it has a step, a step of that
length, so that `update` does not throw its size error on it; the run returns an estimate of
the length of `x0`. -/
theorem bary_recursive_sizes (oracle : List ℝ → ℝ) (x0 : List ℝ) (nu zeta lambda_ : ℝ)
    (noise : ℕ → ℝ) (iterations : ℤ) :
    (∀ k : ℕ,
      ((update_body Real.exp oracle nu zeta lambda_ noise)^[k] (initial_state x0)).xhat.length
        = x0.length ∧
      (∀ p, ((update_body Real.exp oracle nu zeta lambda_ noise)^[k] (initial_state x0)).step
        = some p → p.length = x0.length) ∧
      ∃ t, update Real.exp oracle nu zeta lambda_ noise
        ((update_body Real.exp oracle nu zeta lambda_ noise)^[k] (initial_state x0)) = .ok t) ∧
    ∃ s, bary_recursive Real.exp oracle x0 nu zeta lambda_ noise iterations = .ok s ∧
      s = (update_body Real.exp oracle nu zeta lambda_ noise)^[(max 1 iterations).toNat]
        (initial_state x0) ∧
      s.xhat.length = x0.length := by
  refine ⟨fun k => ⟨iterate_xhat_length _ _ _ _ _ _ _ k,
    fun p hp => iterate_step_length _ _ _ _ _ _ _ k p hp, _, update_eq_ok _ _ _ _ _ _ _ ?_⟩,
    _, bary_recursive_eq Real.exp oracle x0 nu zeta lambda_ noise iterations, rfl,
    iterate_xhat_length _ _ _ _ _ _ _ _⟩
  intro p hp
  rw [iterate_step_length _ _ _ _ _ _ _ k p hp, iterate_xhat_length]

theorem update_body_m_pos (oracle : List ℝ → ℝ) (nu zeta lambda_ : ℝ) (noise : ℕ → ℝ)
    (s : State ℝ) (hl : 0 ≤ lambda_) (hm : 0 ≤ s.m) :
    0 < (update_body Real.exp oracle nu zeta lambda_ noise s).m := by
  show 0 < lambda_ * s.m + Real.exp _
  have := Real.exp_pos (-nu * oracle (make_probe s.xhat
    (draw_curiosity noise zeta s.gen s.xhat.length s.step)))
  have := mul_nonneg hl hm
  linarith

theorem update_body_finite (oracle : List ℝ → ℝ) (nu zeta lambda_ : ℝ) (noise : ℕ → ℝ)
    (s : State ℝ) (hf : s.finite = true)
    (hm : (update_body Real.exp oracle nu zeta lambda_ noise s).m ≠ 0) :
    (update_body Real.exp oracle nu zeta lambda_ noise s).finite = true := by
  have e : (update_body Real.exp oracle nu zeta lambda_ noise s).finite
      = (s.finite && (s.xhat.isEmpty ||
        decide ((update_body Real.exp oracle nu zeta lambda_ noise s).m ≠ 0))) := rfl
  rw [e, hf]
  simp [hm]

theorem iterate_m_nonneg (oracle : List ℝ → ℝ) (x0 : List ℝ) (nu zeta lambda_ : ℝ)
    (noise : ℕ → ℝ) (hl : 0 ≤ lambda_) (n : ℕ) :
    0 ≤ ((update_body Real.exp oracle nu zeta lambda_ noise)^[n] (initial_state x0)).m ∧
      ((update_body Real.exp oracle nu zeta lambda_ noise)^[n] (initial_state x0)).finite
        = true := by
  induction n with
  | zero => exact ⟨le_rfl, rfl⟩
  | succ n ih =>
    rw [Function.iterate_succ_apply']
    have hpos := update_body_m_pos oracle nu zeta lambda_ noise _ hl ih.1
    exact ⟨hpos.le, update_body_finite oracle nu zeta lambda_ noise _ ih.2 hpos.ne'⟩

theorem iterate_m_pos (oracle : List ℝ → ℝ) (x0 : List ℝ) (nu zeta lambda_ : ℝ)
    (noise : ℕ → ℝ) (hl : 0 ≤ lambda_) (n : ℕ) (hn : 1 ≤ n) :
    0 < ((update_body Real.exp oracle nu zeta lambda_ noise)^[n] (initial_state x0)).m := by
  obtain ⟨k, rfl⟩ : ∃ k, n = k + 1 := ⟨n - 1, by omega⟩
  rw [Function.iterate_succ_apply']
  exact update_body_m_pos oracle nu zeta lambda_ noise _ hl
    (iterate_m_nonneg oracle x0 nu zeta lambda_ noise hl k).1

/-- Over exact arithmetic, where the exponential is never zero: for `lambda > 0` the weight
total after any number of iterations is strictly positive and no quotient of the run has the
divisor zero. -/
theorem weight_total_pos_exact (oracle : List ℝ → ℝ) (x0 : List ℝ)
    (nu zeta lambda_ : ℝ) (noise : ℕ → ℝ) (iterations : ℤ) (hl : 0 < lambda_) :
    (∀ n : ℕ, 1 ≤ n →
      0 < ((update_body Real.exp oracle nu zeta lambda_ noise)^[n] (initial_state x0)).m) ∧
    ∃ s, bary_recursive Real.exp oracle x0 nu zeta lambda_ noise iterations = .ok s ∧
      0 < s.m ∧ s.finite = true := by
  refine ⟨fun n hn => iterate_m_pos oracle x0 nu zeta lambda_ noise hl.le n hn,
    _, bary_recursive_eq Real.exp oracle x0 nu zeta lambda_ noise iterations,
    iterate_m_pos oracle x0 nu zeta lambda_ noise hl.le _ (by omega),
    (iterate_m_nonneg oracle x0 nu zeta lambda_ noise hl.le _).2⟩

/-- C13: the weight total of `bary_recursive` is not always positive.  With the sum of squares
as oracle, `x0 = [20, 20]`, `nu = 3`, `lambda = 1`, every noise sample equal to `1` and one
iteration, the probe is `[21, 21]`, of cost `882`, its weight `exp(-2646)` underflows to zero,
the weight total after the iteration is `1 * 0 + 0 = 0`, and the step is computed by a
division by that zero. -/
theorem bary_recursive_weight_total_zero :
    ∃ s, bary_recursive (exp_underflow Real.exp) sum_of_squares [20, 20] 3 0 1 (fun _ => 1) 1
        = .ok s ∧
      s.probes = [[21, 21]] ∧ exp_underflow Real.exp (-3 * sum_of_squares [21, 21]) = 0 ∧
      s.m = 0 ∧ s.finite = false := by
  refine ⟨_, bary_recursive_eq (exp_underflow Real.exp) sum_of_squares [20, 20] 3 0 1
    (fun _ => 1) 1, ?_⟩
  have h1 : (max 1 (1 : ℤ)).toNat = 1 := by decide
  rw [h1, Function.iterate_one]
  norm_num [update_body, initial_state, draw_curiosity, make_probe, sum_of_squares,
    exp_underflow, List.range_succ]

/-! ### No noise -/

theorem draw_curiosity_quiet (zeta : ℝ) (gen size : ℕ) (prev : Option (List ℝ))
    (h : prev = none ∨ prev = some (List.replicate size 0)) :
    draw_curiosity (fun _ => (0 : ℝ)) zeta gen size prev = List.replicate size 0 := by
  apply List.ext_getElem
  · simp [draw_curiosity_length]
  · intro i h1 h2
    have hi : i < size := by simpa using h2
    rcases h with h | h
    · subst h
      simp [draw_curiosity]
    · subst h
      simp [draw_curiosity, List.getD, List.getElem?_replicate, hi]

theorem make_probe_zero (x : List ℝ) : make_probe x (List.replicate x.length 0) = x := by
  unfold make_probe
  induction x with
  | nil => rfl
  | cons a rest ih => simp [List.replicate_succ, ih]

theorem update_body_quiet (oracle : List ℝ → ℝ) (nu zeta lambda_ : ℝ) (s : State ℝ)
    (h : s.step = none ∨ s.step = some (List.replicate s.xhat.length 0)) :
    update_body Real.exp oracle nu zeta lambda_ (fun _ => 0) s
      = { m := lambda_ * s.m + Real.exp (-nu * oracle s.xhat)
          xhat := s.xhat
          step := some (List.replicate s.xhat.length 0)
          gen := s.gen + s.xhat.length
          probes := s.probes ++ [s.xhat]
          finite := s.finite && (s.xhat.isEmpty ||
            decide (lambda_ * s.m + Real.exp (-nu * oracle s.xhat) ≠ 0)) } := by
  have hz : ∀ a b : ℝ, (List.replicate s.xhat.length (0 : ℝ)).map (fun c => c * a / b)
      = List.replicate s.xhat.length 0 := by
    intro a b
    simp
  have hadd : List.zipWith (fun e st => e + st) s.xhat (List.replicate s.xhat.length (0 : ℝ))
      = s.xhat := make_probe_zero s.xhat
  simp only [update_body, draw_curiosity_quiet zeta s.gen s.xhat.length s.step h,
    make_probe_zero, hz, hadd]

theorem iterate_quiet (oracle : List ℝ → ℝ) (x0 : List ℝ) (nu zeta lambda_ : ℝ) (n : ℕ) :
    ((update_body Real.exp oracle nu zeta lambda_ (fun _ => 0))^[n] (initial_state x0)).xhat
        = x0 ∧
      (((update_body Real.exp oracle nu zeta lambda_ (fun _ => 0))^[n] (initial_state x0)).step
          = none ∨
        ((update_body Real.exp oracle nu zeta lambda_ (fun _ => 0))^[n] (initial_state x0)).step
          = some (List.replicate x0.length 0)) ∧
      ((update_body Real.exp oracle nu zeta lambda_ (fun _ => 0))^[n] (initial_state x0)).probes
        = List.replicate n x0 ∧
      ((update_body Real.exp oracle nu zeta lambda_ (fun _ => 0))^[n] (initial_state x0)).m
        = Real.exp (-nu * oracle x0) * ∑ i in Finset.range n, lambda_ ^ i := by
  induction n with
  | zero => simp [initial_state]
  | succ n ih =>
    obtain ⟨hx, hs, hp, hm⟩ := ih
    have hs1 : ((update_body Real.exp oracle nu zeta lambda_ (fun _ => 0))^[n]
        (initial_state x0)).step = none ∨
        ((update_body Real.exp oracle nu zeta lambda_ (fun _ => 0))^[n]
        (initial_state x0)).step = some (List.replicate
          ((update_body Real.exp oracle nu zeta lambda_ (fun _ => 0))^[n]
            (initial_state x0)).xhat.length 0) := by
      rw [hx]
      exact hs
    rw [Function.iterate_succ_apply', update_body_quiet oracle nu zeta lambda_ _ hs1]
    refine ⟨hx, Or.inr ?_, ?_, ?_⟩
    · simp only [hx]
    · simp only [hx, hp]
      exact (List.replicate_succ' n x0).symm
    · simp only [hx, hm]
      rw [geom_sum_succ]
      ring

theorem iterate_quiet_finite (oracle : List ℝ → ℝ) (x0 : List ℝ) (nu zeta lambda_ : ℝ)
    (hl : lambda_ ≠ -1) (n : ℕ) :
    ((update_body Real.exp oracle nu zeta lambda_ (fun _ => 0))^[n] (initial_state x0)).finite
      = true := by
  induction n with
  | zero => rfl
  | succ n ih =>
    have hm := (iterate_quiet oracle x0 nu zeta lambda_ (n + 1)).2.2.2
    rw [Function.iterate_succ_apply'] at hm ⊢
    apply update_body_finite oracle nu zeta lambda_ _ _ ih
    rw [hm]
    exact mul_ne_zero (Real.exp_pos _).ne' (geom_sum_ne_zero hl (Nat.succ_ne_zero n))

/-- Exact cancellation: with every noise sample zero, `lambda = -1` and two iterations from
`x0 = [1]`, the weight total of the second iteration is `-w + w = 0` and the step of that
iteration is the quotient `0 * w / 0`. -/
theorem no_noise_cancellation :
    ∃ s, bary_recursive Real.exp sum_of_squares [1] 3 2 (-1) (fun _ => 0) 2 = .ok s ∧
      s.m = 0 ∧ s.finite = false := by
  refine ⟨_, bary_recursive_eq Real.exp sum_of_squares [1] 3 2 (-1) (fun _ => 0) 2, ?_⟩
  have h2 : (max 1 (2 : ℤ)).toNat = 1 + 1 := by decide
  have hm := (iterate_quiet sum_of_squares [1] 3 2 (-1) (1 + 1)).2.2.2
  have hx := (iterate_quiet sum_of_squares [1] 3 2 (-1) 1).1
  have hm0 : ((update_body Real.exp sum_of_squares 3 2 (-1) (fun _ => 0))^[1 + 1]
      (initial_state [1])).m = 0 := by
    rw [hm]
    norm_num [Finset.sum_range_succ]
  rw [h2]
  refine ⟨hm0, ?_⟩
  rw [Function.iterate_succ_apply'] at hm0 ⊢
  have e : ∀ t : State ℝ, (update_body Real.exp sum_of_squares 3 2 (-1) (fun _ => 0) t).finite
      = (t.finite && (t.xhat.isEmpty ||
        decide ((update_body Real.exp sum_of_squares 3 2 (-1) (fun _ => 0) t).m ≠ 0))) :=
    fun _ => rfl
  rw [e, hm0, hx]
  simp

/-- Over exact arithmetic, where the exponential is never zero: with every noise sample zero
and `lambda` other than `-1`, the estimate stays `x0`, every probe is `x0`, the step is the
zero vector, and no quotient has the divisor zero. -/
theorem no_noise_exact (oracle : List ℝ → ℝ) (x0 : List ℝ) (nu zeta lambda_ : ℝ)
    (iterations : ℤ) (hl : lambda_ ≠ -1) :
    ∃ s, bary_recursive Real.exp oracle x0 nu zeta lambda_ (fun _ => 0) iterations = .ok s ∧
      s.finite = true ∧ s.xhat = x0 ∧ s.step = some (List.replicate x0.length 0) ∧
      s.probes = List.replicate (max 1 iterations).toNat x0 := by
  refine ⟨_, bary_recursive_eq Real.exp oracle x0 nu zeta lambda_ (fun _ => 0) iterations,
    iterate_quiet_finite oracle x0 nu zeta lambda_ hl _,
    (iterate_quiet oracle x0 nu zeta lambda_ _).1, ?_,
    (iterate_quiet oracle x0 nu zeta lambda_ _).2.2.1⟩
  obtain ⟨k, hk⟩ : ∃ k, (max 1 iterations).toNat = k + 1 :=
    ⟨(max 1 iterations).toNat - 1, by omega⟩
  rcases (iterate_quiet oracle x0 nu zeta lambda_ (max 1 iterations).toNat).2.1 with h | h
  · rw [hk, Function.iterate_succ_apply'] at h
    obtain ⟨st, hst, _⟩ := update_body_step Real.exp oracle nu zeta lambda_ (fun _ => 0)
      ((update_body Real.exp oracle nu zeta lambda_ (fun _ => 0))^[k] (initial_state x0))
    rw [hst] at h
    exact absurd h (by simp)
  · exact h

/-- C12: with every noise sample zero the estimate does not always stay `x0`.  With the sum
of squares as oracle, `x0 = [20, 20]`, `nu = 3`, `lambda = 1` and one iteration, the curiosity
is the zero vector, the probe is `x0`, of cost `800`, its weight `exp(-2400)` underflows to
zero, the weight total is `1 * 0 + 0 = 0`, and each component of the step is the quotient
`0 * 0 / 0`, which is not a number, and is added to the estimate. -/
theorem bary_recursive_no_noise_zero_divisor :
    ∃ s, bary_recursive (exp_underflow Real.exp) sum_of_squares [20, 20] 3 0 1 (fun _ => 0) 1
        = .ok s ∧
      s.probes = [[20, 20]] ∧ exp_underflow Real.exp (-3 * sum_of_squares [20, 20]) = 0 ∧
      s.m = 0 ∧ s.finite = false := by
  refine ⟨_, bary_recursive_eq (exp_underflow Real.exp) sum_of_squares [20, 20] 3 0 1
    (fun _ => 0) 1, ?_⟩
  have h1 : (max 1 (1 : ℤ)).toNat = 1 := by decide
  rw [h1, Function.iterate_one]
  norm_num [update_body, initial_state, draw_curiosity, make_probe, sum_of_squares,
    exp_underflow, List.range_succ]

/-! ### The weight total and the estimate as discounted sums over the probes -/

theorem foldl_discount_eq_sum (lam : ℝ) (ts : List ℝ) :
    ts.foldl (fun acc t => lam * acc + t) 0
      = ∑ k in Finset.range ts.length, lam ^ (ts.length - 1 - k) * ts.getD k 0 := by
  induction ts using List.reverseRecOn with
  | nil => simp
  | append_singleton l a ih =>
    rw [List.foldl_append, ih]
    simp only [List.foldl_cons, List.foldl_nil, List.length_append, List.length_singleton]
    rw [Finset.sum_range_succ, Finset.mul_sum]
    congr 1
    · apply Finset.sum_congr rfl
      intro k hk
      have hk1 : k < l.length := Finset.mem_range.mp hk
      have e1 : l.length + 1 - 1 - k = (l.length - 1 - k) + 1 := by omega
      have e2 : (l ++ [a]).getD k 0 = l.getD k 0 := by
        simp [List.getD, List.getElem?_append_left hk1]
      rw [e1, e2, pow_succ]
      ring
    · have e3 : (l ++ [a]).getD l.length 0 = a := by
        simp [List.getD]
      rw [e3]
      simp

theorem foldl_discount_one (ts : List ℝ) :
    ts.foldl (fun acc t => 1 * acc + t) 0 = ts.sum := by
  simp only [one_mul]
  exact List.sum_eq_foldl.symm

theorem map_getD_eq {α : Type} (f : α → ℝ) (l : List α) (a : α) (k : ℕ) (hk : k < l.length) :
    (l.map f).getD k 0 = f (l.getD k a) := by
  simp [List.getD, List.getElem?_eq_getElem hk]

theorem iterate_m_eq_foldl (oracle : List ℝ → ℝ) (x0 : List ℝ) (nu zeta lambda_ : ℝ)
    (noise : ℕ → ℝ) (n : ℕ) :
    ((update_body Real.exp oracle nu zeta lambda_ noise)^[n] (initial_state x0)).m
      = (((update_body Real.exp oracle nu zeta lambda_ noise)^[n] (initial_state x0)).probes.map
          (fun p => Real.exp (-nu * oracle p))).foldl (fun acc t => lambda_ * acc + t) 0 := by
  induction n with
  | zero => simp [initial_state]
  | succ n ih =>
    rw [Function.iterate_succ_apply']
    simp only [update_body, List.map_append, List.foldl_append, List.map_cons, List.map_nil,
      List.foldl_cons, List.foldl_nil]
    rw [← ih]

/-- C16: the weight total that `bary_recursive` returns after its `n` iterations is the
discounted sum over `k` of `lambda^(n-k)` times the weight `exp(-nu * oracle(probe_k))` of the
`k`-th probe (here the probes are numbered from `0`, so the exponent is `n - 1 - k`); with
`lambda = 1` it is the plain sum of the `n` weights. -/
theorem bary_recursive_weight_total_sum (oracle : List ℝ → ℝ) (x0 : List ℝ)
    (nu zeta lambda_ : ℝ) (noise : ℕ → ℝ) (iterations : ℤ) :
    ∃ s, bary_recursive Real.exp oracle x0 nu zeta lambda_ noise iterations = .ok s ∧
      s.probes.length = (max 1 iterations).toNat ∧
      s.m = ∑ k in Finset.range s.probes.length,
        lambda_ ^ (s.probes.length - 1 - k) * Real.exp (-nu * oracle (s.probes.getD k [])) ∧
      (lambda_ = 1 → s.m = (s.probes.map (fun p => Real.exp (-nu * oracle p))).sum) := by
  refine ⟨_, bary_recursive_eq Real.exp oracle x0 nu zeta lambda_ noise iterations,
    iterate_probes_length _ _ _ _ _ _ _ _, ?_, ?_⟩
  · rw [iterate_m_eq_foldl, foldl_discount_eq_sum, List.length_map]
    apply Finset.sum_congr rfl
    intro k hk
    rw [map_getD_eq _ _ [] k (Finset.mem_range.mp hk)]
  · intro h1
    rw [iterate_m_eq_foldl, h1, foldl_discount_one]

/-- Witness of C16: `lambda = 1` and three iterations from `x0 = [1, 1]`: the weight total
is the plain sum of the weights of the three probes. -/
theorem bary_recursive_weight_total_sum_witness :
    ∃ s, bary_recursive Real.exp sum_of_squares [1, 1] 3 0 1 (fun _ => 1) 3 = .ok s ∧
      s.probes.length = 3 ∧
      s.m = (s.probes.map (fun p => Real.exp (-3 * sum_of_squares p))).sum := by
  obtain ⟨s, hs, hlen, _, h1⟩ :=
    bary_recursive_weight_total_sum sum_of_squares [1, 1] 3 0 1 (fun _ => 1) 3
  exact ⟨s, hs, hlen, h1 rfl⟩

/-- Witness of C17: the run of three iterations from `x0 = [1, 1]` and the state passed to
its second update. -/
theorem bary_recursive_sizes_witness :
    ((update_body Real.exp sum_of_squares 3 0 1 (fun _ => 1))^[1]
        (initial_state [1, 1])).xhat.length = 2 ∧
    ∃ s, bary_recursive Real.exp sum_of_squares [1, 1] 3 0 1 (fun _ => 1) 3 = .ok s ∧
      s.xhat.length = 2 := by
  obtain ⟨h1, s, hs, _, hlen⟩ :=
    bary_recursive_sizes sum_of_squares [1, 1] 3 0 1 (fun _ => 1) 3
  exact ⟨(h1 1).1, s, hs, hlen⟩

end Recursive

/-! ## The clamp branch of the batch barycenter -/

section Clamp

theorem weighted_average_rescale (w : List ℝ → ℝ) (S F : ℝ) (hS : S ≠ 0) (hF : F ≠ 0) (d : ℕ)
    (xs : List (List ℝ)) :
    weighted_average w F d xs = (weighted_average w S d xs).map (fun t => S / F * t) := by
  simp only [weighted_average, List.map_map]
  apply List.map_congr_left
  intro j _
  simp only [Function.comp_def]
  rw [sum_map_div, sum_map_div]
  field_simp
  ring

theorem single_candidate_hull (y : ℝ) (c : List ℝ) (h : is_convex_combination c [[1]] [y]) :
    y = 1 := by
  obtain ⟨hlen, _, hsum, hv⟩ := h
  match c, hlen with
  | [a], _ =>
    have ha : a = 1 := by simpa using hsum
    have h0 := hv 0 (by simp)
    simpa [ha] using h0

/-- C19: in the clamp branch of `bary_batch` (candidates of one length `d`, guard passed,
weight sum `S` below `1e-10`) the coefficients `w / 1e-10` are not negative and sum to
`S / 1e-10`, a factor strictly between `0` and `1`, and the vector returned is the weighted
average of the candidates multiplied by that factor; for some input it is outside the convex
hull of the candidates. -/
theorem bary_batch_clamp_shrinks (oracle : List ℝ → ℝ) (nu : ℝ) (x0 : List ℝ)
    (rest : List (List ℝ)) (d : ℕ) (hlen : ∀ x ∈ x0 :: rest, x.length = d)
    (h0 : oracle x0 ≠ 0)
    (hS : ((x0 :: rest).map (fun x => Real.exp (-nu * oracle x))).sum < 1e-10) :
    (∀ x ∈ x0 :: rest, 0 ≤ Real.exp (-nu * oracle x) / 1e-10) ∧
    ((x0 :: rest).map (fun x => Real.exp (-nu * oracle x) / 1e-10)).sum
      = ((x0 :: rest).map (fun x => Real.exp (-nu * oracle x))).sum / 1e-10 ∧
    0 < ((x0 :: rest).map (fun x => Real.exp (-nu * oracle x))).sum / 1e-10 ∧
    ((x0 :: rest).map (fun x => Real.exp (-nu * oracle x))).sum / 1e-10 < 1 ∧
    bary_batch Real.exp oracle (x0 :: rest) nu
      = .ok ((weighted_average (fun x => Real.exp (-nu * oracle x))
          ((x0 :: rest).map (fun x => Real.exp (-nu * oracle x))).sum d (x0 :: rest)).map
        (fun t => ((x0 :: rest).map (fun x => Real.exp (-nu * oracle x))).sum / 1e-10 * t)) ∧
    ∃ (nu1 : ℝ) (v1 : List ℝ), bary_batch Real.exp sum_of_squares [[1]] nu1 = .ok v1 ∧
      ¬ ∃ c, is_convex_combination c [[1]] v1 := by
  have hd : x0.length = d := hlen x0 (List.mem_cons_self _ _)
  have hlen0 : ∀ x ∈ x0 :: rest, x.length = x0.length := fun x hx => (hlen x hx).trans hd.symm
  have hpos : 0 < ((x0 :: rest).map (fun x => Real.exp (-nu * oracle x))).sum :=
    weight_sum_pos oracle nu x0 rest
  have hfloor : (0 : ℝ) < 1e-10 := by norm_num
  refine ⟨fun x _ => div_nonneg (Real.exp_pos _).le hfloor.le, sum_map_div _ _ _,
    div_pos hpos hfloor, (div_lt_one hfloor).mpr hS, ?_, ?_⟩
  · rw [bary_batch_eq Real.exp oracle nu x0 rest hlen0 h0]
    have hc : clamp_weight_sum ((x0 :: rest).map (bexp_fun Real.exp oracle nu)).sum
        = 1e-10 :=
      clamp_weight_sum_of_lt hS
    rw [hc, hd]
    exact congrArg Except.ok
      (weighted_average_rescale (fun x => Real.exp (-nu * oracle x)) _ _ hpos.ne' hfloor.ne'
        d (x0 :: rest))
  · obtain ⟨y, hy, hyle⟩ := bary_batch_single_clamped 1e11 le_rfl
    refine ⟨1e11, [y], hy, ?_⟩
    rintro ⟨c, hc⟩
    have := single_candidate_hull y c hc
    linarith

/-- Witness of C19: one candidate `[1, 2]`, the constant oracle `1` and `nu = 1e11`. -/
theorem bary_batch_clamp_shrinks_witness :
    ([[(1 : ℝ), 2]].map (fun _ => Real.exp (-1e11 * 1))).sum / 1e-10 < 1 ∧
    bary_batch Real.exp (fun _ => 1) [[1, 2]] 1e11
      = .ok ((weighted_average (fun _ => Real.exp (-1e11 * 1))
          ([[(1 : ℝ), 2]].map (fun _ => Real.exp (-1e11 * 1))).sum 2 [[1, 2]]).map
        (fun t => ([[(1 : ℝ), 2]].map (fun _ => Real.exp (-1e11 * 1))).sum / 1e-10 * t)) := by
  obtain ⟨_, _, _, h4, h5, _⟩ :=
    bary_batch_clamp_shrinks (fun _ => 1) 1e11 [1, 2] [] 2 (by simp) (by norm_num) (by
      have h := exp_neg_lt_floor 1e11 le_rfl
      have e : (1e-11 : ℝ) < 1e-10 := by norm_num
      simpa using h.trans e)
  exact ⟨h4, h5⟩

end Clamp

end Cppbary
